import Mathlib

/-!
Verification development for the news-digest ingestion/normalization/clustering
core (`newsletter.py`, `scrapers.py`, `date_filter.py`).

The Python code is shallowly embedded: strings are handled as `List Char`
(wrapped into `String` at the interfaces), `datetime` instants are modelled as
seconds on a proleptic-Gregorian timeline (matching CPython's
`date.toordinal` arithmetic), and Python regular-expression operations are
embedded as deterministic character-level matchers that replicate the concrete
patterns appearing in the source (including their greedy/backtracking
behaviour on those patterns).  Unicode-dependent character classes
(`str.lower`, `\w`, `\s`) are modelled on the ASCII range plus the Hangul
syllable block, the alphabets actually exercised by this (Korean) pipeline.
-/

namespace News3

/-! ### Character classes (models of Python `str.lower`, `\s`, `\w`) -/

/-- Python whitespace class `\s` / `str.strip()` (ASCII part). -/
def pySpace (c : Char) : Bool :=
  c = ' ' || c = '\t' || c = '\n' || c = '\r' || c = '\x0b' || c = '\x0c'

/-- Hangul syllables `가-힣` (U+AC00 .. U+D7A3). -/
def isHangul (c : Char) : Bool :=
  0xAC00 ≤ c.toNat && c.toNat ≤ 0xD7A3

/-- Model of the character class `[\w가-힣]` used by `_normalize_title`:
ASCII word characters plus the Hangul syllable block. -/
def isWordChar (c : Char) : Bool :=
  c.isAlphanum || c = '_' || isHangul c

/-- ASCII uppercase test, stated on `Char.toNat` for arithmetic reasoning. -/
def isUpperA (c : Char) : Bool := 65 ≤ c.toNat && c.toNat ≤ 90

/-- Model of Python `str.lower` on one character (ASCII case mapping). -/
def lowerChar (c : Char) : Char :=
  if isUpperA c then Char.ofNat (c.toNat + 32) else c

theorem toNat_ofNat_valid (n : Nat) (h : n < 55296) : (Char.ofNat n).toNat = n := by
  have hv : n.isValidChar := Or.inl h
  simp only [Char.ofNat, hv, dif_pos, Char.ofNatAux, Char.toNat]
  rfl

theorem lowerChar_idem (c : Char) : lowerChar (lowerChar c) = lowerChar c := by
  unfold lowerChar
  by_cases h : isUpperA c
  · simp only [h, if_true]
    simp only [isUpperA, Bool.and_eq_true, decide_eq_true_eq] at h
    have h2 : (Char.ofNat (c.toNat + 32)).toNat = c.toNat + 32 :=
      toNat_ofNat_valid _ (by omega)
    have h3 : isUpperA (Char.ofNat (c.toNat + 32)) = false := by
      simp only [isUpperA, h2, Bool.and_eq_false_iff, decide_eq_false_iff_not]
      omega
    simp [h3]
  · simp [h]

/-! ### Stripping and whitespace collapsing -/

/-- Remove the trailing run of `pySpace` characters (right half of `strip()`). -/
def stripRight : List Char → List Char
  | [] => []
  | c :: rest =>
    match stripRight rest with
    | [] => if pySpace c then [] else [c]
    | r => c :: r

/-- Model of Python `str.strip()`. -/
def pyStrip (l : List Char) : List Char :=
  stripRight (l.dropWhile pySpace)

/-- Model of `re.sub(r"\s+", " ", ·)`: every maximal whitespace run becomes a
single `' '`.  The flag records whether we are inside a run whose replacement
space was already emitted. -/
def collapseWsAux (pending : Bool) : List Char → List Char
  | [] => []
  | c :: rest =>
    if pySpace c then
      if pending then collapseWsAux true rest
      else ' ' :: collapseWsAux true rest
    else c :: collapseWsAux false rest

/-- Model of `re.sub(r"[^\w가-힣]+", " ", ·)`: every maximal run of non-word
characters becomes a single `' '`. -/
def wordifyAux (pending : Bool) : List Char → List Char
  | [] => []
  | c :: rest =>
    if isWordChar c then c :: wordifyAux false rest
    else if pending then wordifyAux true rest
    else ' ' :: wordifyAux true rest

/-! ### Bracket and parenthesis removal

`re.sub(r"\[[^\]]+\]", " ", ·)` replaces each non-overlapping leftmost match
(a `'['`, at least one non-`']'` character, then the first following `']'`)
with a space; `re.sub(r"\([^)]*\)", " ", ·)` does the same with parentheses
but also accepts an empty body.  Both are realised as one-pass machines whose
optional accumulator holds the characters seen since an as yet unmatched
opening delimiter. -/

def debrAux (acc : Option (List Char)) : List Char → List Char
  | [] =>
    match acc with
    | none => []
    | some buf => '[' :: buf.reverse
  | c :: rest =>
    match acc with
    | none =>
      if c = '[' then debrAux (some []) rest
      else c :: debrAux none rest
    | some buf =>
      if c = ']' then
        if buf.isEmpty then '[' :: ']' :: debrAux none rest
        else ' ' :: debrAux none rest
      else debrAux (some (c :: buf)) rest

def deparAux (acc : Option (List Char)) : List Char → List Char
  | [] =>
    match acc with
    | none => []
    | some buf => '(' :: buf.reverse
  | c :: rest =>
    match acc with
    | none =>
      if c = '(' then deparAux (some []) rest
      else c :: deparAux none rest
    | some buf =>
      if c = ')' then ' ' :: deparAux none rest
      else deparAux (some (c :: buf)) rest

/-! ### `_normalize_title` (identical in `newsletter.py` and `scrapers.py`) -/

/-- Embedding of `_normalize_title` at the character-list level:
lowercase and strip, drop `[...]` groups, drop `(...)` groups, replace
non-word runs by spaces, collapse whitespace and strip. -/
def normTitleChars (l : List Char) : List Char :=
  pyStrip (collapseWsAux false
    (wordifyAux false (deparAux none (debrAux none (pyStrip (l.map lowerChar))))))

/-- Embedding of `_normalize_title` (`newsletter.py` lines 35-41, and the
identical copy in `scrapers.py` lines 499-505). -/
def _normalize_title (s : String) : String := ⟨normTitleChars s.data⟩

/-! ### Canonical-form predicates for normalized titles -/

def wordOrSpace (l : List Char) : Prop := ∀ c ∈ l, isWordChar c = true ∨ c = ' '

def lowerFixed (l : List Char) : Prop := ∀ c ∈ l, lowerChar c = c

def noDouble : List Char → Prop
  | [] => True
  | [_] => True
  | a :: b :: rest => ¬(a = ' ' ∧ b = ' ') ∧ noDouble (b :: rest)

def headNSp (l : List Char) : Prop := ∀ c, l.head? = some c → pySpace c = false

def lastNSp (l : List Char) : Prop := ∀ c, l.getLast? = some c → pySpace c = false

theorem word_not_pySpace {c : Char} (h : isWordChar c = true) : pySpace c = false := by
  rcases hb : pySpace c with _ | _
  · rfl
  · simp only [pySpace, Bool.or_eq_true, decide_eq_true_eq] at hb
    rcases hb with ((((h1 | h1) | h1) | h1) | h1) | h1 <;> subst h1 <;>
      exact absurd h (by decide)

theorem word_ne_of_eval {c d : Char} (h : isWordChar c = true)
    (hd : isWordChar d = false) : c ≠ d := by
  intro he
  subst he
  rw [h] at hd
  exact Bool.noConfusion hd

theorem canon_pySpace_iff {l : List Char} (hws : wordOrSpace l) {c : Char} (hc : c ∈ l) :
    pySpace c = true ↔ c = ' ' := by
  rcases hws c hc with h | h
  · simp only [word_not_pySpace h]
    constructor
    · intro he
      exact absurd he.symm (by decide : ¬(true = false))
    · intro he
      subst he
      exact absurd h (by decide)
  · subst h
    simp [show pySpace ' ' = true from by decide]

/-! ### Identity of each normalization pass on canonical input -/

theorem map_lowerChar_eq_self {l : List Char} (h : lowerFixed l) : l.map lowerChar = l := by
  induction l with
  | nil => rfl
  | cons c rest ih =>
    simp only [List.map_cons, h c (List.mem_cons_self c rest)]
    rw [ih fun x hx => h x (List.mem_cons_of_mem c hx)]

theorem dropWhile_pySpace_eq_self {l : List Char} (h : headNSp l) :
    l.dropWhile pySpace = l := by
  cases l with
  | nil => rfl
  | cons c rest =>
    have := h c rfl
    simp [List.dropWhile, this]

theorem stripRight_eq_self {l : List Char} (h : lastNSp l) : stripRight l = l := by
  induction l with
  | nil => rfl
  | cons c rest ih =>
    cases rest with
    | nil =>
      have hc := h c rfl
      simp [stripRight, hc]
    | cons d rest2 =>
      have hih : stripRight (d :: rest2) = d :: rest2 := by
        apply ih
        intro x hx
        exact h x (by rw [List.getLast?_cons_cons]; exact hx)
      rw [stripRight, hih]

theorem pyStrip_eq_self {l : List Char} (h1 : headNSp l) (h2 : lastNSp l) :
    pyStrip l = l := by
  rw [pyStrip, dropWhile_pySpace_eq_self h1, stripRight_eq_self h2]

theorem debrAux_eq_self {l : List Char} (h : '[' ∉ l) : debrAux none l = l := by
  induction l with
  | nil => rfl
  | cons c rest ih =>
    have hc : c ≠ '[' := fun he => h (he ▸ List.mem_cons_self c rest)
    rw [debrAux]
    simp only [hc, if_false]
    rw [ih fun hm => h (List.mem_cons_of_mem c hm)]

theorem deparAux_eq_self {l : List Char} (h : '(' ∉ l) : deparAux none l = l := by
  induction l with
  | nil => rfl
  | cons c rest ih =>
    have hc : c ≠ '(' := fun he => h (he ▸ List.mem_cons_self c rest)
    rw [deparAux]
    simp only [hc, if_false]
    rw [ih fun hm => h (List.mem_cons_of_mem c hm)]

theorem wordifyAux_eq_self {l : List Char} (hws : wordOrSpace l) (hnd : noDouble l) :
    wordifyAux false l = l ∧ ((∀ c, l.head? = some c → c ≠ ' ') → wordifyAux true l = l) := by
  induction l with
  | nil => exact ⟨rfl, fun _ => rfl⟩
  | cons c rest ih =>
    have hws' : wordOrSpace rest := fun x hx => hws x (List.mem_cons_of_mem c hx)
    have hnd' : noDouble rest := by
      cases rest with
      | nil => trivial
      | cons d r2 => exact hnd.2
    obtain ⟨ihf, iht⟩ := ih hws' hnd'
    rcases hws c (List.mem_cons_self c rest) with hw | hsp
    · constructor
      · rw [wordifyAux]
        simp [hw, ihf]
      · intro _
        rw [wordifyAux]
        simp [hw, ihf]
    · subst hsp
      have hwsf : isWordChar ' ' = false := by decide
      have hrest : wordifyAux true rest = rest := by
        apply iht
        intro d hd
        cases rest with
        | nil => simp at hd
        | cons e r2 =>
          simp only [List.head?_cons, Option.some_inj] at hd
          subst hd
          exact fun he => hnd.1 ⟨rfl, he⟩
      refine ⟨?_, fun hh => absurd rfl (hh ' ' rfl)⟩
      rw [wordifyAux]
      simp [hwsf, hrest]

theorem collapseWsAux_eq_self {l : List Char} (hws : wordOrSpace l) (hnd : noDouble l) :
    collapseWsAux false l = l ∧ ((∀ c, l.head? = some c → c ≠ ' ') → collapseWsAux true l = l) := by
  induction l with
  | nil => exact ⟨rfl, fun _ => rfl⟩
  | cons c rest ih =>
    have hws' : wordOrSpace rest := fun x hx => hws x (List.mem_cons_of_mem c hx)
    have hnd' : noDouble rest := by
      cases rest with
      | nil => trivial
      | cons d r2 => exact hnd.2
    obtain ⟨ihf, iht⟩ := ih hws' hnd'
    by_cases hsp : c = ' '
    · subst hsp
      have hrest : collapseWsAux true rest = rest := by
        apply iht
        intro d hd
        cases rest with
        | nil => simp at hd
        | cons e r2 =>
          simp only [List.head?_cons, Option.some_inj] at hd
          subst hd
          exact fun he => hnd.1 ⟨rfl, he⟩
      refine ⟨?_, fun hh => absurd rfl (hh ' ' rfl)⟩
      rw [collapseWsAux]
      simp [show pySpace ' ' = true from rfl, hrest]
    · have hnp : pySpace c = false := by
        rcases hws c (List.mem_cons_self c rest) with hw | h
        · exact word_not_pySpace hw
        · exact absurd h hsp
      constructor
      · rw [collapseWsAux]
        simp [hnp, ihf]
      · intro _
        rw [collapseWsAux]
        simp [hnp, ihf]

/-! ### Character-membership propagation through the passes -/

theorem mem_collapseWsAux {c : Char} : ∀ {p : Bool} {l : List Char},
    c ∈ collapseWsAux p l → c ∈ l ∨ c = ' '
  | _, [], h => by simp [collapseWsAux] at h
  | p, d :: rest, h => by
    rw [collapseWsAux] at h
    by_cases hd : pySpace d = true
    · simp only [hd, if_true] at h
      cases p with
      | true =>
        rcases mem_collapseWsAux h with h1 | h1
        · exact Or.inl (List.mem_cons_of_mem d h1)
        · exact Or.inr h1
      | false =>
        rw [if_neg (by decide)] at h
        rcases List.mem_cons.mp h with h1 | h1
        · exact Or.inr h1
        · rcases mem_collapseWsAux h1 with h2 | h2
          · exact Or.inl (List.mem_cons_of_mem d h2)
          · exact Or.inr h2
    · simp only [hd, if_false] at h
      rcases List.mem_cons.mp h with h1 | h1
      · exact Or.inl (h1 ▸ List.mem_cons_self d rest)
      · rcases mem_collapseWsAux h1 with h2 | h2
        · exact Or.inl (List.mem_cons_of_mem d h2)
        · exact Or.inr h2

theorem mem_wordifyAux {c : Char} : ∀ {p : Bool} {l : List Char},
    c ∈ wordifyAux p l → (c ∈ l ∧ isWordChar c = true) ∨ c = ' '
  | _, [], h => by simp [wordifyAux] at h
  | p, d :: rest, h => by
    rw [wordifyAux] at h
    by_cases hd : isWordChar d = true
    · simp only [hd, if_true] at h
      rcases List.mem_cons.mp h with h1 | h1
      · exact Or.inl ⟨h1 ▸ List.mem_cons_self d rest, h1 ▸ hd⟩
      · rcases mem_wordifyAux h1 with ⟨h2, h3⟩ | h2
        · exact Or.inl ⟨List.mem_cons_of_mem d h2, h3⟩
        · exact Or.inr h2
    · simp only [hd, if_false] at h
      cases p with
      | true =>
        rw [if_pos rfl] at h
        rcases mem_wordifyAux h with ⟨h2, h3⟩ | h2
        · exact Or.inl ⟨List.mem_cons_of_mem d h2, h3⟩
        · exact Or.inr h2
      | false =>
        rw [if_neg (by decide)] at h
        rcases List.mem_cons.mp h with h1 | h1
        · exact Or.inr h1
        · rcases mem_wordifyAux h1 with ⟨h2, h3⟩ | h2
          · exact Or.inl ⟨List.mem_cons_of_mem d h2, h3⟩
          · exact Or.inr h2

theorem mem_debrAux {c : Char} : ∀ {l : List Char} {acc : Option (List Char)},
    c ∈ debrAux acc l →
      c ∈ l ∨ (∃ buf, acc = some buf ∧ c ∈ buf) ∨ c = '[' ∨ c = ']' ∨ c = ' '
  | [], none, h => by simp [debrAux] at h
  | [], some buf, h => by
    rw [debrAux] at h
    rcases List.mem_cons.mp h with h1 | h1
    · exact Or.inr (Or.inr (Or.inl h1))
    · exact Or.inr (Or.inl ⟨buf, rfl, List.mem_reverse.mp h1⟩)
  | d :: rest, none, h => by
    rw [debrAux] at h
    by_cases hd : d = '['
    · simp only [hd, if_true] at h
      rcases mem_debrAux h with h1 | ⟨buf, hb, hc⟩ | h1
      · exact Or.inl (List.mem_cons_of_mem d h1)
      · rw [Option.some_inj] at hb
        subst hb
        exact absurd hc (List.not_mem_nil c)
      · exact Or.inr (Or.inr h1)
    · simp only [hd, if_false] at h
      rcases List.mem_cons.mp h with h1 | h1
      · exact Or.inl (h1 ▸ List.mem_cons_self d rest)
      · rcases mem_debrAux h1 with h2 | ⟨buf, hb, _⟩ | h2
        · exact Or.inl (List.mem_cons_of_mem d h2)
        · exact absurd hb (by simp)
        · exact Or.inr (Or.inr h2)
  | d :: rest, some buf, h => by
    rw [debrAux] at h
    by_cases hd : d = ']'
    · simp only [hd, if_true] at h
      by_cases hb : buf.isEmpty
      · simp only [hb, if_true] at h
        rcases List.mem_cons.mp h with h1 | h1
        · exact Or.inr (Or.inr (Or.inl h1))
        · rcases List.mem_cons.mp h1 with h2 | h2
          · exact Or.inr (Or.inr (Or.inr (Or.inl h2)))
          · rcases mem_debrAux h2 with h3 | ⟨buf2, hb2, _⟩ | h3
            · exact Or.inl (List.mem_cons_of_mem d h3)
            · exact absurd hb2 (by simp)
            · exact Or.inr (Or.inr h3)
      · simp only [hb, if_false] at h
        rcases List.mem_cons.mp h with h1 | h1
        · exact Or.inr (Or.inr (Or.inr (Or.inr h1)))
        · rcases mem_debrAux h1 with h3 | ⟨buf2, hb2, _⟩ | h3
          · exact Or.inl (List.mem_cons_of_mem d h3)
          · exact absurd hb2 (by simp)
          · exact Or.inr (Or.inr h3)
    · simp only [hd, if_false] at h
      rcases mem_debrAux h with h1 | ⟨buf2, hb2, hc2⟩ | h1
      · exact Or.inl (List.mem_cons_of_mem d h1)
      · rw [Option.some_inj] at hb2
        subst hb2
        rcases List.mem_cons.mp hc2 with h2 | h2
        · exact Or.inl (h2 ▸ List.mem_cons_self d rest)
        · exact Or.inr (Or.inl ⟨buf, rfl, h2⟩)
      · exact Or.inr (Or.inr h1)

theorem mem_deparAux {c : Char} : ∀ {l : List Char} {acc : Option (List Char)},
    c ∈ deparAux acc l →
      c ∈ l ∨ (∃ buf, acc = some buf ∧ c ∈ buf) ∨ c = '(' ∨ c = ')' ∨ c = ' '
  | [], none, h => by simp [deparAux] at h
  | [], some buf, h => by
    rw [deparAux] at h
    rcases List.mem_cons.mp h with h1 | h1
    · exact Or.inr (Or.inr (Or.inl h1))
    · exact Or.inr (Or.inl ⟨buf, rfl, List.mem_reverse.mp h1⟩)
  | d :: rest, none, h => by
    rw [deparAux] at h
    by_cases hd : d = '('
    · simp only [hd, if_true] at h
      rcases mem_deparAux h with h1 | ⟨buf, hb, hc⟩ | h1
      · exact Or.inl (List.mem_cons_of_mem d h1)
      · rw [Option.some_inj] at hb
        subst hb
        exact absurd hc (List.not_mem_nil c)
      · exact Or.inr (Or.inr h1)
    · simp only [hd, if_false] at h
      rcases List.mem_cons.mp h with h1 | h1
      · exact Or.inl (h1 ▸ List.mem_cons_self d rest)
      · rcases mem_deparAux h1 with h2 | ⟨buf, hb, _⟩ | h2
        · exact Or.inl (List.mem_cons_of_mem d h2)
        · exact absurd hb (by simp)
        · exact Or.inr (Or.inr h2)
  | d :: rest, some buf, h => by
    rw [deparAux] at h
    by_cases hd : d = ')'
    · simp only [hd, if_true] at h
      rcases List.mem_cons.mp h with h1 | h1
      · exact Or.inr (Or.inr (Or.inr (Or.inr h1)))
      · rcases mem_deparAux h1 with h3 | ⟨buf2, hb2, _⟩ | h3
        · exact Or.inl (List.mem_cons_of_mem d h3)
        · exact absurd hb2 (by simp)
        · exact Or.inr (Or.inr h3)
    · simp only [hd, if_false] at h
      rcases mem_deparAux h with h1 | ⟨buf2, hb2, hc2⟩ | h1
      · exact Or.inl (List.mem_cons_of_mem d h1)
      · rw [Option.some_inj] at hb2
        subst hb2
        rcases List.mem_cons.mp hc2 with h2 | h2
        · exact Or.inl (h2 ▸ List.mem_cons_self d rest)
        · exact Or.inr (Or.inl ⟨buf, rfl, h2⟩)
      · exact Or.inr (Or.inr h1)

theorem stripRight_take (l : List Char) : ∃ n, stripRight l = l.take n := by
  induction l with
  | nil => exact ⟨0, rfl⟩
  | cons c rest ih =>
    obtain ⟨n, hn⟩ := ih
    rcases hr : stripRight rest with _ | ⟨d, r2⟩
    · by_cases hc : pySpace c
      · exact ⟨0, by rw [stripRight, hr]; simp [hc]⟩
      · exact ⟨1, by rw [stripRight, hr]; simp [hc]⟩
    · refine ⟨n + 1, ?_⟩
      rw [stripRight, hr]
      show c :: (d :: r2) = List.take (n + 1) (c :: rest)
      rw [← hr, hn, List.take_succ_cons]

theorem mem_stripRight {c : Char} {l : List Char} (h : c ∈ stripRight l) : c ∈ l := by
  obtain ⟨n, hn⟩ := stripRight_take l
  rw [hn] at h
  exact List.mem_of_mem_take h

theorem mem_pyStrip {c : Char} {l : List Char} (h : c ∈ pyStrip l) : c ∈ l := by
  rw [pyStrip] at h
  exact (List.dropWhile_sublist pySpace).mem (mem_stripRight h)

end News3

namespace News3

/-! ### Canonicality of the normalization output -/

theorem headNSp_collapse_true : ∀ l : List Char, headNSp (collapseWsAux true l)
  | [] => by intro c hc; simp [collapseWsAux] at hc
  | d :: rest => by
    intro c hc
    rw [collapseWsAux] at hc
    by_cases hd : pySpace d = true
    · rw [if_pos hd, if_pos rfl] at hc
      exact headNSp_collapse_true rest c hc
    · rw [if_neg (by simp [hd])] at hc
      rw [List.head?_cons, Option.some_inj] at hc
      subst hc
      simpa using hd

theorem noDouble_cons {c : Char} {l : List Char}
    (h1 : ∀ x, l.head? = some x → ¬(c = ' ' ∧ x = ' ')) (h2 : noDouble l) :
    noDouble (c :: l) := by
  cases l with
  | nil => trivial
  | cons d rest => exact ⟨h1 d rfl, h2⟩

theorem noDouble_tail {c : Char} {l : List Char} (h : noDouble (c :: l)) : noDouble l := by
  cases l with
  | nil => trivial
  | cons d rest => exact h.2

theorem noDouble_collapse : ∀ (l : List Char) (p : Bool), noDouble (collapseWsAux p l)
  | [], p => by cases p <;> trivial
  | d :: rest, p => by
    rw [collapseWsAux]
    by_cases hd : pySpace d = true
    · rw [if_pos hd]
      cases p with
      | true =>
        rw [if_pos rfl]
        exact noDouble_collapse rest true
      | false =>
        rw [if_neg (by decide)]
        refine noDouble_cons ?_ (noDouble_collapse rest true)
        intro x hx hc
        have := headNSp_collapse_true rest x hx
        rw [hc.2] at this
        exact absurd this (by decide)
    · rw [if_neg (by simp [hd])]
      refine noDouble_cons ?_ (noDouble_collapse rest false)
      intro x _ hc
      rw [hc.1] at hd
      exact absurd (by decide : pySpace ' ' = true) hd

theorem noDouble_dropWhile {l : List Char} (h : noDouble l) :
    noDouble (l.dropWhile pySpace) := by
  induction l with
  | nil => trivial
  | cons c rest ih =>
    rw [List.dropWhile]
    by_cases hc : pySpace c = true
    · rw [hc]
      exact ih (noDouble_tail h)
    · rw [show pySpace c = false from by simpa using hc]
      exact h

theorem noDouble_take {l : List Char} (h : noDouble l) : ∀ n, noDouble (l.take n) := by
  induction l with
  | nil => intro n; simp; trivial
  | cons c rest ih =>
    intro n
    cases n with
    | zero => trivial
    | succ m =>
      rw [List.take_succ_cons]
      cases rest with
      | nil => simp; trivial
      | cons d r2 =>
        cases m with
        | zero => trivial
        | succ k =>
          rw [List.take_succ_cons]
          exact ⟨h.1, by rw [← List.take_succ_cons]; exact ih (noDouble_tail h) (k + 1)⟩

theorem noDouble_stripRight {l : List Char} (h : noDouble l) : noDouble (stripRight l) := by
  obtain ⟨n, hn⟩ := stripRight_take l
  rw [hn]
  exact noDouble_take h n

theorem headNSp_dropWhile (l : List Char) : headNSp (l.dropWhile pySpace) := by
  induction l with
  | nil => intro c hc; simp at hc
  | cons c rest ih =>
    rw [List.dropWhile]
    by_cases hc : pySpace c = true
    · rw [hc]; exact ih
    · rw [show pySpace c = false from by simpa using hc]
      intro x hx
      rw [List.head?_cons, Option.some_inj] at hx
      subst hx
      simpa using hc

theorem headNSp_take {l : List Char} (h : headNSp l) (n : Nat) : headNSp (l.take n) := by
  cases l with
  | nil => simpa using h
  | cons c rest =>
    cases n with
    | zero => intro x hx; simp at hx
    | succ m =>
      rw [List.take_succ_cons]
      intro x hx
      rw [List.head?_cons, Option.some_inj] at hx
      exact h x (by rw [List.head?_cons, hx])

theorem headNSp_stripRight {l : List Char} (h : headNSp l) : headNSp (stripRight l) := by
  obtain ⟨n, hn⟩ := stripRight_take l
  rw [hn]
  exact headNSp_take h n

theorem lastNSp_stripRight : ∀ l : List Char, lastNSp (stripRight l)
  | [] => by intro c hc; simp [stripRight] at hc
  | c :: rest => by
    intro x hx
    rw [stripRight] at hx
    rcases hr : stripRight rest with _ | ⟨d, r2⟩
    · rw [hr] at hx
      by_cases hc : pySpace c = true
      · rw [if_pos hc] at hx
        simp at hx
      · rw [if_neg (by simp [hc])] at hx
        simp only [List.getLast?_singleton, Option.some_inj] at hx
        subst hx
        simpa using hc
    · rw [hr] at hx
      rw [show (match d :: r2 with
          | [] => if pySpace c = true then [] else [c]
          | r => c :: r) = c :: d :: r2 from rfl] at hx
      rw [List.getLast?_cons_cons] at hx
      exact lastNSp_stripRight rest x (by rw [hr]; exact hx)

theorem headNSp_pyStrip (l : List Char) : headNSp (pyStrip l) :=
  headNSp_stripRight (headNSp_dropWhile l)

theorem lastNSp_pyStrip (l : List Char) : lastNSp (pyStrip l) :=
  lastNSp_stripRight _

theorem noDouble_pyStrip {l : List Char} (h : noDouble l) : noDouble (pyStrip l) :=
  noDouble_stripRight (noDouble_dropWhile h)

theorem norm_wordOrSpace (l : List Char) : wordOrSpace (normTitleChars l) := by
  intro c hc
  rw [normTitleChars] at hc
  have h1 := mem_pyStrip hc
  rcases mem_collapseWsAux h1 with h2 | h2
  · rcases mem_wordifyAux h2 with ⟨_, h3⟩ | h3
    · exact Or.inl h3
    · exact Or.inr h3
  · exact Or.inr h2

theorem norm_lowerFixed (l : List Char) : lowerFixed (normTitleChars l) := by
  intro c hc
  rw [normTitleChars] at hc
  have h1 := mem_pyStrip hc
  rcases mem_collapseWsAux h1 with h2 | h2
  · rcases mem_wordifyAux h2 with ⟨h3, hw⟩ | h3
    · rcases mem_deparAux h3 with h4 | ⟨buf, hb, _⟩ | h4 | h4 | h4
      · rcases mem_debrAux h4 with h5 | ⟨buf, hb, _⟩ | h5 | h5 | h5
        · have h6 := mem_pyStrip h5
          obtain ⟨x, _, hx⟩ := List.mem_map.mp h6
          rw [← hx]
          exact lowerChar_idem x
        · exact absurd hb (by simp)
        · subst h5; exact absurd hw (by decide)
        · subst h5; exact absurd hw (by decide)
        · subst h5; exact absurd hw (by decide)
      · exact absurd hb (by simp)
      · subst h4; exact absurd hw (by decide)
      · subst h4; exact absurd hw (by decide)
      · subst h4; exact absurd hw (by decide)
    · subst h3; decide
  · subst h2; decide

theorem norm_noDouble (l : List Char) : noDouble (normTitleChars l) := by
  rw [normTitleChars]
  exact noDouble_pyStrip (noDouble_collapse _ _)

theorem norm_headNSp (l : List Char) : headNSp (normTitleChars l) := by
  rw [normTitleChars]
  exact headNSp_pyStrip _

theorem norm_lastNSp (l : List Char) : lastNSp (normTitleChars l) := by
  rw [normTitleChars]
  exact lastNSp_pyStrip _

theorem normTitleChars_idem (l : List Char) :
    normTitleChars (normTitleChars l) = normTitleChars l := by
  have hws := norm_wordOrSpace l
  have hlf := norm_lowerFixed l
  have hnd := norm_noDouble l
  have hh := norm_headNSp l
  have hl := norm_lastNSp l
  have hhead : ∀ c, (normTitleChars l).head? = some c → c ≠ ' ' := by
    intro c hc he
    have := hh c hc
    rw [he] at this
    exact absurd this (by decide)
  have hnb : '[' ∉ normTitleChars l := by
    intro hmem
    rcases hws _ hmem with h | h
    · exact absurd h (by decide)
    · exact absurd h (by decide)
  have hnp : '(' ∉ normTitleChars l := by
    intro hmem
    rcases hws _ hmem with h | h
    · exact absurd h (by decide)
    · exact absurd h (by decide)
  conv_lhs => rw [normTitleChars]
  rw [map_lowerChar_eq_self hlf,
    pyStrip_eq_self hh hl,
    debrAux_eq_self hnb,
    deparAux_eq_self hnp,
    (wordifyAux_eq_self hws hnd).1,
    (collapseWsAux_eq_self hws hnd).1,
    pyStrip_eq_self hh hl]

/-- C9: title normalization is idempotent — for every string `t`,
`_normalize_title (_normalize_title t) = _normalize_title t`
(`newsletter.py` lines 35-41). -/
theorem C9_normalize_title_idem (t : String) :
    _normalize_title (_normalize_title t) = _normalize_title t :=
  congrArg String.mk (normTitleChars_idem t.data)

end News3

namespace News3

/-! ### URL normalization (`_normalize_url`, identical in both modules)

`urllib.parse.urlparse` is modelled following CPython's `urlsplit`: optional
scheme (a leading `[a-zA-Z][a-zA-Z0-9+.-]*` before the first `':'`,
lowercased), a `//`-introduced network location terminated by `/`, `?` or
`#`, then fragment split at the first `'#'` and query split at the first
`'?'`. -/

def splitAtFirst (t : Char) : List Char → List Char × Option (List Char)
  | [] => ([], none)
  | c :: rest =>
    if c = t then ([], some rest)
    else
      let p := splitAtFirst t rest
      (c :: p.1, p.2)

def isSchemeChar (c : Char) : Bool :=
  c.isAlpha || c.isDigit || c = '+' || c = '-' || c = '.'

def schemeSplitOf (l : List Char) : List Char × List Char :=
  match splitAtFirst ':' l with
  | (pre, some rest) =>
    match pre with
    | [] => ([], l)
    | c :: cs =>
      if c.isAlpha && (c :: cs).all isSchemeChar then ((c :: cs).map lowerChar, rest)
      else ([], l)
  | (_, none) => ([], l)

def isNetlocEnd (c : Char) : Bool := c = '/' || c = '?' || c = '#'

def netlocSplitOf : List Char → List Char × List Char
  | '/' :: '/' :: rest => (rest.takeWhile (fun c => !isNetlocEnd c), rest.dropWhile (fun c => !isNetlocEnd c))
  | l => ([], l)

structure UrlParts where
  scheme : List Char
  netloc : List Char
  path : List Char
  query : List Char
  frag : List Char

def urlparseChars (l : List Char) : UrlParts :=
  let s := schemeSplitOf l
  let n := netlocSplitOf s.2
  let f := splitAtFirst '#' n.2
  let q := splitAtFirst '?' f.1
  ⟨s.1, n.1, q.1, q.2.getD [], f.2.getD []⟩

/-- Python `path.rstrip("/")`: remove every trailing `'/'`. -/
def rstripSlash (l : List Char) : List Char :=
  (l.reverse.dropWhile (fun c => c = '/')).reverse

/-- Embedding of `_normalize_url` (`newsletter.py` lines 26-32 and
`scrapers.py` lines 490-496): empty input maps to the empty string; otherwise
`scheme://netloc.lower()` followed by the trailing-slash-stripped path, with
the scheme defaulting to `https`; query and fragment are dropped. -/
def normUrlChars (l : List Char) : List Char :=
  if l = [] then []
  else
    let p := urlparseChars l
    let scheme := if p.scheme = [] then "https".data else p.scheme
    scheme ++ "://".data ++ p.netloc.map lowerChar ++ rstripSlash p.path

def _normalize_url (s : String) : String := ⟨normUrlChars s.data⟩

/-! ### Data model

`Article` objects are embedded with the four fields the deduplication and
clustering code reads (`title`, `link`, `summary`, `source`).  `NArt` tags an
article with a numeric identity so that Python object identity (`a is rep`,
`id(g)`) can be expressed; the pipeline tags the input list positionally, so
distinct list entries are distinct objects. -/

structure Art where
  title : String
  link : String
  summary : String
  source : String
deriving DecidableEq, Inhabited, Repr

structure NArt where
  idx : Nat
  art : Art
deriving DecidableEq, Inhabited, Repr

/-- NormalizedKey of a record: `(normalized url, normalized title)`. -/
def nkey (a : Art) : String × String := (_normalize_url a.link, _normalize_title a.title)

/-! ### Representative selection (`_source_priority`, `_pick_representative`) -/

def INDUSTRY_SOURCES : List String :=
  ["안경신문", "옵티컬저널", "옵티칼저널", "안경계", "아이케어뉴스",
   "메디칼업저버", "의학신문", "헬스조선", "바이오타임즈"]

def TIER2_SOURCES : List String :=
  ["연합뉴스", "뉴시스", "YTN", "SBS", "KBS", "MBC", "JTBC",
   "조선일보", "중앙일보", "동아일보", "한겨레", "경향신문"]

def pyStripStr (s : String) : String := ⟨pyStrip s.data⟩

/-- Embedding of `_source_priority` (`newsletter.py` lines 109-117). -/
def _source_priority (source : String) : Nat :=
  if pyStripStr source ∈ INDUSTRY_SOURCES then 1
  else if pyStripStr source ∈ TIER2_SOURCES then 2
  else if pyStripStr source ≠ "" then 3
  else 99

/-- Sort key of `_pick_representative`: `(tier ascending, title length
descending)`; the second component is compared downward, mirroring Python's
`-len(_normalize_title(title))`. -/
def scoreOf (a : NArt) : Nat × Nat :=
  (_source_priority a.art.source, (_normalize_title a.art.title).length)

def repLe (a b : NArt) : Prop :=
  (scoreOf a).1 < (scoreOf b).1 ∨ ((scoreOf a).1 = (scoreOf b).1 ∧ (scoreOf b).2 ≤ (scoreOf a).2)

instance : DecidableRel repLe := fun a b => by
  unfold repLe
  infer_instance

instance : IsTotal NArt repLe where
  total a b := by
    unfold repLe
    omega

instance : IsTrans NArt repLe where
  trans a b c hab hbc := by
    unfold repLe at *
    omega

theorem repLe_refl (a : NArt) : repLe a a := Or.inr ⟨rfl, le_refl _⟩

/-- Embedding of `_pick_representative` (`newsletter.py` lines 120-125):
Python's stable `sorted(group, key=score)[0]` is modelled by a stable
insertion sort under the total preorder `repLe`. -/
def _pick_representative (group : List NArt) : NArt :=
  (List.insertionSort repLe group).headD default

theorem one_le_source_priority (s : String) : 1 ≤ _source_priority s := by
  rw [_source_priority]
  split
  · exact le_refl 1
  · split
    · omega
    · split <;> omega

theorem pick_representative_mem {group : List NArt} (h : group ≠ []) :
    _pick_representative group ∈ group := by
  have hperm := List.perm_insertionSort repLe group
  have hne : List.insertionSort repLe group ≠ [] := by
    intro he
    have h2 := hperm.symm
    rw [he] at h2
    exact h (List.Perm.eq_nil h2)
  rw [_pick_representative]
  rcases hs : List.insertionSort repLe group with _ | ⟨a, rest⟩
  · exact absurd hs hne
  · rw [List.headD_cons]
    have ha : a ∈ List.insertionSort repLe group := by
      rw [hs]
      exact List.mem_cons_self a rest
    exact hperm.mem_iff.mp ha

theorem pick_representative_min (group : List NArt) :
    ∀ a ∈ group, repLe (_pick_representative group) a := by
  intro a ha
  have hperm := List.perm_insertionSort repLe group
  have hsorted := List.sorted_insertionSort repLe group
  have ha' : a ∈ List.insertionSort repLe group := hperm.mem_iff.mpr ha
  rcases hs : List.insertionSort repLe group with _ | ⟨b, rest⟩
  · rw [hs] at ha'
    exact absurd ha' (List.not_mem_nil a)
  · rw [hs] at ha' hsorted
    rw [_pick_representative, hs, List.headD_cons]
    rcases List.mem_cons.mp ha' with h1 | h1
    · exact h1 ▸ repLe_refl b
    · exact List.rel_of_sorted_cons hsorted a h1

end News3

namespace News3

/-- C7: for every non-empty cluster member set, the representative chosen by
`_pick_representative` is a member attaining the minimum of the ordering
(source-priority tier ascending, then normalized-title length descending);
a non-empty source outside both configured tiers gets tier 3, an
absent/empty source gets tier 99, and when an industry-tier (tier-1) member
exists the representative is industry-tier regardless of arrival order. -/
theorem C7_pick_representative_min (group : List NArt) (h : group ≠ []) :
    _pick_representative group ∈ group ∧
    (∀ a ∈ group, repLe (_pick_representative group) a) ∧
    (∀ s : String, pyStripStr s ∉ INDUSTRY_SOURCES → pyStripStr s ∉ TIER2_SOURCES →
      pyStripStr s ≠ "" → _source_priority s = 3) ∧
    (∀ s : String, pyStripStr s = "" → _source_priority s = 99) ∧
    ((∃ a ∈ group, _source_priority a.art.source = 1) →
      _source_priority (_pick_representative group).art.source = 1) := by
  refine ⟨pick_representative_mem h, pick_representative_min group, ?_, ?_, ?_⟩
  · intro s h1 h2 h3
    rw [_source_priority, if_neg h1, if_neg h2, if_pos h3]
  · intro s h1
    have h2 : pyStripStr s ∉ INDUSTRY_SOURCES := by rw [h1]; decide
    have h3 : pyStripStr s ∉ TIER2_SOURCES := by rw [h1]; decide
    rw [_source_priority, if_neg h2, if_neg h3, if_neg (by simp [h1])]
  · rintro ⟨a, ha, hpa⟩
    have hle := pick_representative_min group a ha
    have h1 := one_le_source_priority (_pick_representative group).art.source
    rcases hle with hlt | ⟨heq, _⟩
    · rw [scoreOf, scoreOf, hpa] at hlt
      omega
    · rw [scoreOf, scoreOf, hpa] at heq
      exact heq

def c7group : List NArt :=
  [⟨0, ⟨"제니스 신제품 출시 소식입니다", "http://a.com/1", "", "조선일보"⟩⟩,
   ⟨1, ⟨"제니스 신제품", "http://b.com/2", "", "안경신문"⟩⟩,
   ⟨2, ⟨"전혀 다른 긴 제목", "http://c.com/3", "", ""⟩⟩]

/-- Witness for C7 at a concrete three-member group containing a tier-2, a
tier-1 and an unknown-source record. -/
theorem C7_pick_representative_min_witness :
    _pick_representative c7group ∈ c7group ∧
    _source_priority (_pick_representative c7group).art.source = 1 :=
  ⟨(C7_pick_representative_min c7group (by decide)).1,
   (C7_pick_representative_min c7group (by decide)).2.2.2.2 (by decide)⟩

end News3

namespace News3

/-! ### Similarity (`difflib.SequenceMatcher(None, a, b).ratio()`)

Modelled without the junk heuristics (`autojunk` only affects sequences of
length ≥ 200, far beyond the witness inputs): the longest matching block
(ties: smallest index in `a`, then smallest in `b`) is found, the total
matched-character count is the recursive Ratcliff–Obershelp sum, and the
ratio is `2*M/(len a + len b)` as an exact rational. -/

def commonPrefixLen : List Char → List Char → Nat
  | [], _ => 0
  | _ :: _, [] => 0
  | a :: as, b :: bs => if a = b then commonPrefixLen as bs + 1 else 0

theorem commonPrefixLen_le_left : ∀ (x y : List Char), commonPrefixLen x y ≤ x.length
  | [], _ => by rw [commonPrefixLen]; simp
  | _ :: _, [] => by rw [commonPrefixLen]; simp
  | a :: as, b :: bs => by
    rw [commonPrefixLen]
    by_cases h : a = b
    · rw [if_pos h]
      have := commonPrefixLen_le_left as bs
      simpa using this
    · rw [if_neg h]
      simp

def lmStep (a b : List Char) (best : Nat × Nat × Nat) (ij : Nat × Nat) : Nat × Nat × Nat :=
  let k := commonPrefixLen (a.drop ij.1) (b.drop ij.2)
  if best.2.2 < k then (ij.1, ij.2, k) else best

/-- Longest matching block of `a` and `b` as `(i, j, size)`: maximal size,
ties broken by the smallest `i`, then the smallest `j` (difflib's
`find_longest_match` tie-breaking). -/
def longestMatch (a b : List Char) : Nat × Nat × Nat :=
  ((List.range a.length).flatMap fun i => (List.range b.length).map fun j => (i, j)).foldl
    (lmStep a b) (0, 0, 0)

theorem lmStep_inv (a b : List Char) (best : Nat × Nat × Nat) (ij : Nat × Nat)
    (h : best.2.2 = 0 ∨ best.1 + best.2.2 ≤ a.length) :
    (lmStep a b best ij).2.2 = 0 ∨ (lmStep a b best ij).1 + (lmStep a b best ij).2.2 ≤ a.length := by
  rw [lmStep]
  by_cases hk : best.2.2 < commonPrefixLen (a.drop ij.1) (b.drop ij.2)
  · rw [if_pos hk]
    have h1 := commonPrefixLen_le_left (a.drop ij.1) (b.drop ij.2)
    rw [List.length_drop] at h1
    rcases Nat.eq_zero_or_pos (commonPrefixLen (a.drop ij.1) (b.drop ij.2)) with h2 | h2
    · exact Or.inl h2
    · right
      simp only
      omega
  · rw [if_neg hk]
    exact h

theorem foldl_lmStep_inv (a b : List Char) :
    ∀ (l : List (Nat × Nat)) (init : Nat × Nat × Nat),
      (init.2.2 = 0 ∨ init.1 + init.2.2 ≤ a.length) →
      ((l.foldl (lmStep a b) init).2.2 = 0 ∨
        (l.foldl (lmStep a b) init).1 + (l.foldl (lmStep a b) init).2.2 ≤ a.length)
  | [], init, h => h
  | ij :: rest, init, h =>
    foldl_lmStep_inv a b rest (lmStep a b init ij) (lmStep_inv a b init ij h)

theorem longestMatch_inv (a b : List Char) :
    (longestMatch a b).2.2 = 0 ∨ (longestMatch a b).1 + (longestMatch a b).2.2 ≤ a.length :=
  foldl_lmStep_inv a b _ _ (Or.inl rfl)

/-- Total matched characters of the recursive Ratcliff–Obershelp
decomposition (the sum of the sizes of `get_matching_blocks`). -/
def matchTotal (a b : List Char) : Nat :=
  if h : (longestMatch a b).2.2 = 0 then 0
  else
    (longestMatch a b).2.2 +
      matchTotal (a.take (longestMatch a b).1) (b.take (longestMatch a b).2.1) +
      matchTotal (a.drop ((longestMatch a b).1 + (longestMatch a b).2.2))
        (b.drop ((longestMatch a b).2.1 + (longestMatch a b).2.2))
  termination_by a.length
  decreasing_by
  · have hb := longestMatch_inv a b
    rcases hb with hb | hb
    · exact absurd hb h
    · simp only [List.length_take]
      omega
  · have hb := longestMatch_inv a b
    rcases hb with hb | hb
    · exact absurd hb h
    · simp only [List.length_drop]
      omega

/-- `SequenceMatcher.ratio()` as an exact rational. -/
def smRatioQ (a b : List Char) : ℚ :=
  if a.length + b.length = 0 then 1
  else (2 * matchTotal a b : ℚ) / (a.length + b.length)

/-- Embedding of `_normalize_text` (`newsletter.py` lines 44-47):
lowercase, strip, collapse whitespace runs to single spaces. -/
def normTextChars (l : List Char) : List Char :=
  collapseWsAux false (pyStrip (l.map lowerChar))

def _normalize_text (s : String) : String := ⟨normTextChars s.data⟩

/-- Embedding of `_similarity` (`newsletter.py` lines 50-55). -/
def _similarity (a b : String) : ℚ :=
  if _normalize_text a = "" || _normalize_text b = "" then 0
  else smRatioQ (_normalize_text a).data (_normalize_text b).data

/-! ### Bucket keys (`_title_bucket_keys`, `newsletter.py` lines 58-75)

The Python function returns a `set`; its iteration order is unspecified, so
the embedding fixes the canonical insertion order (first-two-tokens,
first-three-tokens when available, first token), deduplicated keeping first
occurrences. -/

def splitTokensAux (cur : List Char) : List Char → List (List Char)
  | [] => if cur = [] then [] else [cur.reverse]
  | c :: rest =>
    if pySpace c then
      if cur = [] then splitTokensAux [] rest
      else cur.reverse :: splitTokensAux [] rest
    else splitTokensAux (c :: cur) rest

/-- Python `str.split()` with no argument: split on whitespace runs,
dropping empty tokens. -/
def splitTokens (l : List Char) : List (List Char) := splitTokensAux [] l

def joinSpace : List (List Char) → List Char
  | [] => []
  | [w] => w
  | w :: rest => w ++ ' ' :: joinSpace rest

def dedupKeys (l : List String) : List String :=
  l.foldl (fun acc k => if k ∈ acc then acc else acc ++ [k]) []

def _title_bucket_keys (title : String) : List String :=
  let nt := normTitleChars title.data
  let tokens := (splitTokens nt).filter fun w => 2 ≤ w.length
  match tokens with
  | [] => []
  | t0 :: _ =>
    dedupKeys ([⟨joinSpace (tokens.take 2)⟩] ++
      (if 3 ≤ tokens.length then [⟨joinSpace (tokens.take 3)⟩] else []) ++
      [⟨t0⟩])

/-! ### Stage-1 exact grouping (`dedupe_and_group_articles`, step 1) -/

abbrev NKey := String × String

def nkeyN (a : NArt) : NKey := nkey a.art

/-- Ordered-dictionary insertion: `exact_map.setdefault(key, []).append(a)`.
Keys keep first-insertion order; each group keeps arrival order. -/
def insertExact (m : List (NKey × List NArt)) (k : NKey) (a : NArt) :
    List (NKey × List NArt) :=
  match m with
  | [] => [(k, [a])]
  | (k2, g) :: rest =>
    if k2 = k then (k2, g ++ [a]) :: rest else (k2, g) :: insertExact rest k a

def exactMapOf (arts : List NArt) : List (NKey × List NArt) :=
  arts.foldl (fun m a => insertExact m (nkeyN a) a) []

/-- `stage1_groups = list(exact_map.values())`. -/
def stage1 (arts : List NArt) : List (List NArt) := (exactMapOf arts).map Prod.snd

/-! ### Stage-2 fuzzy merging (`dedupe_and_group_articles`, step 2) -/

structure DState where
  merged : List (List NArt)
  buckets : List (String × List Nat)
deriving Repr

def bucketGet (b : List (String × List Nat)) (k : String) : List Nat :=
  match b.find? (fun e => e.1 == k) with
  | some e => e.2
  | none => []

def bucketAdd (b : List (String × List Nat)) (k : String) (i : Nat) :
    List (String × List Nat) :=
  match b with
  | [] => [(k, [i])]
  | (k2, is) :: rest =>
    if k2 = k then (k2, is ++ [i]) :: rest else (k2, is) :: bucketAdd rest k i

def dedupNat (l : List Nat) : List Nat :=
  l.foldl (fun acc i => if i ∈ acc then acc else acc ++ [i]) []

/-- Candidate clusters for a group: union of the buckets of its base title's
keys, deduplicated by identity keeping first-seen order (the `seen_ref`
loop). -/
def candIdx (st : DState) (keys : List String) : List Nat :=
  dedupNat (keys.flatMap fun k => bucketGet st.buckets k)

/-- Merge test between the incoming group's base record and the first record
of an existing cluster: similarity on the two summaries when both are
non-empty, else on the two titles, compared against the threshold
(`newsletter.py` lines 171-184). -/
def simPass (thr : ℚ) (base : NArt) (cluster : List NArt) : Bool :=
  let ex := cluster.headD default
  let s :=
    if base.art.summary ≠ "" && ex.art.summary ≠ "" then
      _similarity base.art.summary ex.art.summary
    else _similarity base.art.title ex.art.title
  decide (thr ≤ s)

/-- The cluster stored at index `i` (out-of-range reads give `[]`; the loop
only ever uses in-range indices). -/
def clusterAt (st : DState) (i : Nat) : List NArt := st.merged.getD i []

/-- `grp[0]`, the base record of a group (groups are non-empty). -/
def baseOf (g : List NArt) : NArt := g.headD default

/-- The bucket keys of a group, computed from its base record's title. -/
def keysOf (g : List NArt) : List String := _title_bucket_keys (baseOf g).art.title

/-- Register a new cluster index under each of the given keys
(`for k in bucket_keys: buckets.setdefault(k, []).append(grp)`). -/
def addKeys (b : List (String × List Nat)) (keys : List String) (i : Nat) :
    List (String × List Nat) :=
  keys.foldl (fun b k => bucketAdd b k i) b

/-- One iteration of the stage-2 loop body for one stage-1 group: scan the
candidate clusters in order and extend the first one that passes the
similarity test; otherwise append the group as a new cluster and register
its bucket keys (`newsletter.py` lines 151-189). -/
def dstep (thr : ℚ) (st : DState) (grp : List NArt) : DState :=
  match (candIdx st (keysOf grp)).find?
      (fun i => simPass thr (baseOf grp) (clusterAt st i)) with
  | some i => ⟨st.merged.set i (clusterAt st i ++ grp), st.buckets⟩
  | none => ⟨st.merged ++ [grp], addKeys st.buckets (keysOf grp) st.merged.length⟩

def tagArts (arts : List Art) : List NArt := arts.enum.map fun p => ⟨p.1, p.2⟩

/-- The merged cluster list produced by steps 1 and 2 of
`dedupe_and_group_articles`. -/
def mergedGroups (thr : ℚ) (arts : List Art) : List (List NArt) :=
  ((stage1 (tagArts arts)).foldl (dstep thr) ⟨[], []⟩).merged

/-- Duplicate entries attached to a representative: `{source, link, title}`
of every member that is not (by object identity) the representative
(`newsletter.py` lines 196-203). -/
def dupEntriesOf (grp : List NArt) (rep : NArt) : List (String × String × String) :=
  (grp.filter fun a => a.idx != rep.idx).map fun a => (a.art.source, a.art.link, a.art.title)

/-- Embedding of `dedupe_and_group_articles` (`newsletter.py` lines 131-207):
each cluster yields its representative paired with its duplicates list. -/
def dedupe_and_group_articles (thr : ℚ) (arts : List Art) :
    List (NArt × List (String × String × String)) :=
  (mergedGroups thr arts).map fun g =>
    (_pick_representative g, dupEntriesOf g (_pick_representative g))

end News3

namespace News3

/-! ### Invariants of the stage-1 exact map -/

def mapKeyInv (m : List (NKey × List NArt)) : Prop :=
  ∀ p ∈ m, ∀ a ∈ p.2, nkeyN a = p.1

def mapNE (m : List (NKey × List NArt)) : Prop := ∀ p ∈ m, p.2 ≠ []

theorem insertExact_keyInv {m : List (NKey × List NArt)} {a : NArt}
    (h : mapKeyInv m) : mapKeyInv (insertExact m (nkeyN a) a) := by
  induction m with
  | nil =>
    intro p hp x hx
    rw [insertExact] at hp
    rcases List.mem_singleton.mp hp
    rcases List.mem_singleton.mp hx
    rfl
  | cons q rest ih =>
    intro p hp x hx
    obtain ⟨k2, g⟩ := q
    rw [insertExact] at hp
    by_cases he : k2 = nkeyN a
    · rw [if_pos he] at hp
      rcases List.mem_cons.mp hp with h1 | h1
      · subst h1
        rcases List.mem_append.mp hx with h2 | h2
        · exact h (k2, g) (List.mem_cons_self _ _) x h2
        · rcases List.mem_singleton.mp h2
          exact he.symm
      · exact h p (List.mem_cons_of_mem _ h1) x hx
    · rw [if_neg he] at hp
      rcases List.mem_cons.mp hp with h1 | h1
      · subst h1
        exact h (k2, g) (List.mem_cons_self _ _) x hx
      · exact ih (fun q hq => h q (List.mem_cons_of_mem _ hq)) p h1 x hx

theorem insertExact_ne {m : List (NKey × List NArt)} {k : NKey} {a : NArt}
    (h : mapNE m) : mapNE (insertExact m k a) := by
  induction m with
  | nil =>
    intro p hp
    rw [insertExact] at hp
    rcases List.mem_singleton.mp hp
    simp
  | cons q rest ih =>
    intro p hp
    obtain ⟨k2, g⟩ := q
    rw [insertExact] at hp
    by_cases he : k2 = k
    · rw [if_pos he] at hp
      rcases List.mem_cons.mp hp with h1 | h1
      · subst h1
        simp
      · exact h p (List.mem_cons_of_mem _ h1)
    · rw [if_neg he] at hp
      rcases List.mem_cons.mp hp with h1 | h1
      · subst h1
        exact h (k2, g) (List.mem_cons_self _ _)
      · exact ih (fun q hq => h q (List.mem_cons_of_mem _ hq)) p h1

theorem insertExact_keys {m : List (NKey × List NArt)} {k : NKey} {a : NArt} :
    (insertExact m k a).map Prod.fst =
      if k ∈ m.map Prod.fst then m.map Prod.fst else m.map Prod.fst ++ [k] := by
  induction m with
  | nil => simp [insertExact]
  | cons q rest ih =>
    obtain ⟨k2, g⟩ := q
    rw [insertExact]
    by_cases he : k2 = k
    · rw [if_pos he]
      subst he
      simp
    · rw [if_neg he]
      simp only [List.map_cons]
      rw [ih]
      by_cases hk : k ∈ rest.map Prod.fst
      · rw [if_pos hk, if_pos (List.mem_cons_of_mem _ hk)]
      · rw [if_neg hk, if_neg (by
          intro hc
          rcases List.mem_cons.mp hc with hc | hc
          · exact he hc.symm
          · exact hk hc)]
        simp

end News3

namespace News3

theorem insertExact_keys_nodup {m : List (NKey × List NArt)} {k : NKey} {a : NArt}
    (h : (m.map Prod.fst).Nodup) : ((insertExact m k a).map Prod.fst).Nodup := by
  rw [insertExact_keys]
  by_cases hk : k ∈ m.map Prod.fst
  · rw [if_pos hk]
    exact h
  · rw [if_neg hk]
    refine List.Nodup.append h (List.nodup_singleton k) ?_
    intro x hx hxk
    rw [List.mem_singleton.mp hxk] at hx
    exact hk hx

theorem insertExact_flatten_perm (m : List (NKey × List NArt)) (k : NKey) (a : NArt) :
    ((insertExact m k a).map Prod.snd).flatten.Perm ((m.map Prod.snd).flatten ++ [a]) := by
  induction m with
  | nil => simp [insertExact]
  | cons q rest ih =>
    obtain ⟨k2, g⟩ := q
    rw [insertExact]
    by_cases he : k2 = k
    · rw [if_pos he]
      simp only [List.map_cons, List.flatten_cons]
      rw [List.append_assoc, List.append_assoc]
      exact List.Perm.append_left g List.perm_append_comm
    · rw [if_neg he]
      simp only [List.map_cons, List.flatten_cons]
      rw [List.append_assoc]
      exact List.Perm.append_left g ih

def insFold (m : List (NKey × List NArt)) (l : List NArt) : List (NKey × List NArt) :=
  l.foldl (fun m a => insertExact m (nkeyN a) a) m

theorem exactMapOf_eq_insFold (arts : List NArt) : exactMapOf arts = insFold [] arts := rfl

theorem insFold_keyInv : ∀ (l : List NArt) (m : List (NKey × List NArt)),
    mapKeyInv m → mapKeyInv (insFold m l)
  | [], _, h => h
  | a :: rest, m, h => insFold_keyInv rest _ (insertExact_keyInv h)

theorem insFold_ne : ∀ (l : List NArt) (m : List (NKey × List NArt)),
    mapNE m → mapNE (insFold m l)
  | [], _, h => h
  | a :: rest, m, h => insFold_ne rest _ (insertExact_ne h)

theorem insFold_keys_nodup : ∀ (l : List NArt) (m : List (NKey × List NArt)),
    (m.map Prod.fst).Nodup → ((insFold m l).map Prod.fst).Nodup
  | [], _, h => h
  | a :: rest, m, h => insFold_keys_nodup rest _ (insertExact_keys_nodup h)

theorem insFold_flatten_perm : ∀ (l : List NArt) (m : List (NKey × List NArt)),
    ((insFold m l).map Prod.snd).flatten.Perm ((m.map Prod.snd).flatten ++ l)
  | [], m => by simp [insFold]
  | a :: rest, m => by
    have h1 := insFold_flatten_perm rest (insertExact m (nkeyN a) a)
    have h2 := insertExact_flatten_perm m (nkeyN a) a
    have h3 : insFold m (a :: rest) = insFold (insertExact m (nkeyN a) a) rest := rfl
    rw [h3]
    refine (h1.trans (List.Perm.append_right rest h2)).trans ?_
    rw [List.append_assoc]
    exact List.Perm.refl _

theorem stage1_flatten_perm (arts : List NArt) : (stage1 arts).flatten.Perm arts := by
  have h := insFold_flatten_perm arts []
  simpa [stage1, exactMapOf_eq_insFold] using h

theorem exactMapOf_keyInv (arts : List NArt) : mapKeyInv (exactMapOf arts) := by
  rw [exactMapOf_eq_insFold]
  exact insFold_keyInv arts [] (by intro p hp; simp at hp)

theorem exactMapOf_ne (arts : List NArt) : mapNE (exactMapOf arts) := by
  rw [exactMapOf_eq_insFold]
  exact insFold_ne arts [] (by intro p hp; simp at hp)

theorem exactMapOf_keys_nodup (arts : List NArt) :
    ((exactMapOf arts).map Prod.fst).Nodup := by
  rw [exactMapOf_eq_insFold]
  exact insFold_keys_nodup arts [] (by simp)

theorem nodup_key_lookup {m : List (NKey × List NArt)} (h : (m.map Prod.fst).Nodup)
    {k : NKey} {g1 g2 : List NArt} (h1 : (k, g1) ∈ m) (h2 : (k, g2) ∈ m) : g1 = g2 := by
  induction m with
  | nil => simp at h1
  | cons q rest ih =>
    obtain ⟨kq, gq⟩ := q
    rw [List.map_cons, List.nodup_cons] at h
    rcases List.mem_cons.mp h1 with e1 | e1 <;> rcases List.mem_cons.mp h2 with e2 | e2
    · injection e1.trans e2.symm
    · exfalso
      apply h.1
      have hk : kq = k := (congrArg Prod.fst e1).symm
      rw [hk]
      exact List.mem_map.mpr ⟨(k, g2), e2, rfl⟩
    · exfalso
      apply h.1
      have hk : kq = k := (congrArg Prod.fst e2).symm
      rw [hk]
      exact List.mem_map.mpr ⟨(k, g1), e1, rfl⟩
    · exact ih h.2 e1 e2

theorem stage1_mem_pair {arts : List NArt} {a : NArt} (ha : a ∈ arts) :
    ∃ p ∈ exactMapOf arts, a ∈ p.2 ∧ p.1 = nkeyN a := by
  have hfl : a ∈ (stage1 arts).flatten := (stage1_flatten_perm arts).mem_iff.mpr ha
  rw [List.mem_flatten] at hfl
  obtain ⟨g, hg, hag⟩ := hfl
  rw [stage1] at hg
  obtain ⟨p, hp, he⟩ := List.mem_map.mp hg
  refine ⟨p, hp, he ▸ hag, ?_⟩
  exact (exactMapOf_keyInv arts p hp a (he ▸ hag)).symm

/-- C4 (amended): two records land in the same stage-1 group exactly when
their NormalizedKeys `(normalized url, normalized title)` are equal; hence a
record with an empty normalized URL is grouped by its normalized title
alone, and two records whose normalized URL *and* title are both empty
share the key `("", "")` and are therefore grouped together (they do not
form separate singletons). -/
theorem C4_stage1_grouping (arts : List Art) (a b : NArt)
    (ha : a ∈ tagArts arts) (hb : b ∈ tagArts arts) :
    ((∃ g ∈ stage1 (tagArts arts), a ∈ g ∧ b ∈ g) ↔ nkeyN a = nkeyN b) ∧
    (_normalize_url a.art.link = "" → _normalize_url b.art.link = "" →
      ((∃ g ∈ stage1 (tagArts arts), a ∈ g ∧ b ∈ g) ↔
        _normalize_title a.art.title = _normalize_title b.art.title)) := by
  have hmain : (∃ g ∈ stage1 (tagArts arts), a ∈ g ∧ b ∈ g) ↔ nkeyN a = nkeyN b := by
    constructor
    · rintro ⟨g, hg, hag, hbg⟩
      rw [stage1] at hg
      obtain ⟨p, hp, he⟩ := List.mem_map.mp hg
      have hka := exactMapOf_keyInv (tagArts arts) p hp a (he ▸ hag)
      have hkb := exactMapOf_keyInv (tagArts arts) p hp b (he ▸ hbg)
      rw [hka, hkb]
    · intro hk
      obtain ⟨pa, hpa, haa, hka⟩ := stage1_mem_pair ha
      obtain ⟨pb, hpb, hbb, hkb⟩ := stage1_mem_pair hb
      have hpa2 : (nkeyN a, pa.2) ∈ exactMapOf (tagArts arts) := by
        rw [← hka]
        exact hpa
      have hpb2 : (nkeyN a, pb.2) ∈ exactMapOf (tagArts arts) := by
        rw [hk, ← hkb]
        exact hpb
      have hgg : pa.2 = pb.2 :=
        nodup_key_lookup (exactMapOf_keys_nodup (tagArts arts)) hpa2 hpb2
      refine ⟨pa.2, ?_, haa, hgg ▸ hbb⟩
      rw [stage1]
      exact List.mem_map_of_mem Prod.snd hpa
  refine ⟨hmain, ?_⟩
  intro hua hub
  rw [hmain, nkeyN, nkeyN, nkey, nkey, hua, hub, Prod.mk.injEq]
  simp

def c4arts : List Art :=
  [⟨"같은 제목", "", "", "s1"⟩, ⟨"같은 제목!", "", "", "s2"⟩]

/-- Witness for C4 (amended): two records with empty normalized URLs and
equal normalized titles land in one stage-1 group. -/
theorem C4_stage1_grouping_witness :
    ∃ g ∈ stage1 (tagArts c4arts),
      (⟨0, ⟨"같은 제목", "", "", "s1"⟩⟩ : NArt) ∈ g ∧
      (⟨1, ⟨"같은 제목!", "", "", "s2"⟩⟩ : NArt) ∈ g :=
  ((C4_stage1_grouping c4arts _ _ (by decide) (by decide)).2
    (by decide) (by decide)).mpr (by decide)

def c4empty : Art := ⟨"", "", "", "s"⟩

/-- Counterexample to C4 as stated: two records whose normalized URL and
normalized title are both empty do **not** form separate singleton groups —
stage 1 puts them into one shared group. -/
theorem C4_counterexample :
    _normalize_url c4empty.link = "" ∧ _normalize_title c4empty.title = "" ∧
    stage1 (tagArts [c4empty, c4empty]) = [[⟨0, c4empty⟩, ⟨1, c4empty⟩]] := by
  refine ⟨rfl, rfl, ?_⟩
  decide

end News3

namespace News3

/-! ### Generic `getD` support lemmas -/

theorem getD_set_self {α : Type} {d : α} : ∀ {l : List α} {i : Nat} (v : α),
    i < l.length → (l.set i v).getD i d = v
  | [], i, v, h => by simp at h
  | a :: rest, 0, v, _ => rfl
  | a :: rest, i + 1, v, h => by
    rw [List.set_cons_succ]
    exact getD_set_self v (by simpa using h)

theorem getD_set_ne {α : Type} {d : α} : ∀ {l : List α} {i j : Nat} (v : α),
    j ≠ i → (l.set i v).getD j d = l.getD j d
  | [], _, _, _, _ => by simp
  | a :: rest, 0, 0, v, h => absurd rfl h
  | a :: rest, 0, j + 1, v, _ => rfl
  | a :: rest, i + 1, 0, v, _ => rfl
  | a :: rest, i + 1, j + 1, v, h => by
    rw [List.set_cons_succ]
    exact getD_set_ne v (by omega)

theorem getD_append_lt {α : Type} {d : α} : ∀ {l : List α} {i : Nat} (t : List α),
    i < l.length → (l ++ t).getD i d = l.getD i d
  | [], i, t, h => by simp at h
  | a :: rest, 0, t, _ => rfl
  | a :: rest, i + 1, t, h => by
    rw [List.cons_append]
    exact getD_append_lt t (by simpa using h)

theorem getD_append_len {α : Type} {d : α} : ∀ (l : List α) (v : α),
    (l ++ [v]).getD l.length d = v
  | [], v => rfl
  | a :: rest, v => by
    rw [List.cons_append]
    exact getD_append_len rest v

theorem getD_mem {α : Type} {d : α} : ∀ {l : List α} {i : Nat},
    i < l.length → l.getD i d ∈ l
  | [], i, h => by simp at h
  | a :: rest, 0, _ => List.mem_cons_self a rest
  | a :: rest, i + 1, h => List.mem_cons_of_mem a (getD_mem (by simpa using h))

/-! ### Bucket-map lemmas -/

theorem bucketGet_bucketAdd (b : List (String × List Nat)) (k2 : String) (i : Nat)
    (k : String) :
    bucketGet (bucketAdd b k2 i) k =
      if k = k2 then bucketGet b k ++ [i] else bucketGet b k := by
  induction b with
  | nil =>
    rw [bucketAdd]
    by_cases he : k = k2
    · rw [if_pos he, bucketGet, bucketGet]
      simp [he]
    · have hne : (k2 == k) = false := beq_eq_false_iff_ne.mpr fun hx => he hx.symm
      rw [if_neg he, bucketGet, bucketGet]
      simp [List.find?_cons, hne]
  | cons e rest ih =>
    obtain ⟨ke, ise⟩ := e
    rw [bucketAdd]
    by_cases h1 : ke = k2
    · rw [if_pos h1]
      by_cases h2 : k = k2
      · rw [if_pos h2, bucketGet, bucketGet]
        subst h1
        subst h2
        simp [List.find?_cons, beq_self_eq_true]
      · rw [if_neg h2, bucketGet, bucketGet]
        have hne : (k2 == k) = false := by
          simp only [beq_eq_false_iff_ne]
          intro he
          exact h2 he.symm
        subst h1
        simp only [List.find?_cons, hne]
    · rw [if_neg h1]
      by_cases h3 : ke = k
      · subst h3
        rw [bucketGet, bucketGet]
        simp only [List.find?_cons, beq_self_eq_true]
        rw [if_neg (by intro he; exact h1 he)]
      · rw [bucketGet, bucketGet]
        have hne : (ke == k) = false := by simpa using h3
        simp only [List.find?_cons, hne]
        rw [← bucketGet, ← bucketGet, ih]

theorem bucketGet_addKeys : ∀ (keys : List String) (b : List (String × List Nat))
    (i : Nat) (k : String), keys.Nodup →
    bucketGet (addKeys b keys i) k =
      bucketGet b k ++ (if k ∈ keys then [i] else [])
  | [], b, i, k, _ => by simp [addKeys]
  | k2 :: rest, b, i, k, hnd => by
    have h2 : addKeys b (k2 :: rest) i = addKeys (bucketAdd b k2 i) rest i := rfl
    rw [h2, bucketGet_addKeys rest _ i k (List.nodup_cons.mp hnd).2, bucketGet_bucketAdd]
    by_cases he : k = k2
    · subst he
      rw [if_pos rfl, if_pos (List.mem_cons_self k rest),
        if_neg (List.nodup_cons.mp hnd).1]
      simp
    · rw [if_neg he]
      by_cases hm : k ∈ rest
      · rw [if_pos hm, if_pos (List.mem_cons_of_mem k2 hm)]
      · rw [if_neg hm, if_neg (by
          intro hc
          rcases List.mem_cons.mp hc with hc | hc
          · exact he hc
          · exact hm hc)]

theorem mem_dedupNat_aux : ∀ (l acc : List Nat) (i : Nat),
    i ∈ l.foldl (fun acc j => if j ∈ acc then acc else acc ++ [j]) acc ↔ i ∈ acc ∨ i ∈ l
  | [], acc, i => by simp
  | j :: rest, acc, i => by
    have h := mem_dedupNat_aux rest (if j ∈ acc then acc else acc ++ [j]) i
    rw [List.foldl_cons, h]
    by_cases hj : j ∈ acc
    · rw [if_pos hj]
      constructor
      · rintro (h1 | h1)
        · exact Or.inl h1
        · exact Or.inr (List.mem_cons_of_mem j h1)
      · rintro (h1 | h1)
        · exact Or.inl h1
        · rcases List.mem_cons.mp h1 with h2 | h2
          · exact Or.inl (h2 ▸ hj)
          · exact Or.inr h2
    · rw [if_neg hj]
      constructor
      · rintro (h1 | h1)
        · rcases List.mem_append.mp h1 with h2 | h2
          · exact Or.inl h2
          · exact Or.inr (List.mem_cons.mpr (Or.inl (List.mem_singleton.mp h2)))
        · exact Or.inr (List.mem_cons_of_mem j h1)
      · rintro (h1 | h1)
        · exact Or.inl (List.mem_append.mpr (Or.inl h1))
        · rcases List.mem_cons.mp h1 with h2 | h2
          · exact Or.inl (List.mem_append.mpr (Or.inr (by simp [h2])))
          · exact Or.inr h2

theorem mem_dedupNat {l : List Nat} {i : Nat} : i ∈ dedupNat l ↔ i ∈ l := by
  rw [dedupNat, mem_dedupNat_aux]
  simp

theorem mem_candIdx {st : DState} {keys : List String} {i : Nat} :
    i ∈ candIdx st keys ↔ ∃ k ∈ keys, i ∈ bucketGet st.buckets k := by
  rw [candIdx, mem_dedupNat, List.mem_flatMap]

end News3

namespace News3

/-! ### Stage-2 state invariant -/

/-- State invariant of the stage-2 loop: clusters are non-empty, and the
bucket map indexes exactly the existing clusters under the bucket keys of
their (stable) first record. -/
def DFull (st : DState) : Prop :=
  (∀ g ∈ st.merged, g ≠ []) ∧
  (∀ k i, i ∈ bucketGet st.buckets k →
    i < st.merged.length ∧ k ∈ keysOf (clusterAt st i)) ∧
  (∀ i, i < st.merged.length → ∀ k ∈ keysOf (clusterAt st i), i ∈ bucketGet st.buckets k)

theorem DFull_init : DFull ⟨[], []⟩ := by
  refine ⟨?_, ?_, ?_⟩
  · intro g hg
    simp at hg
  · intro k i hi
    simp [bucketGet, List.find?] at hi
  · intro i hi
    simp at hi

theorem dedupKeys_nodup_aux : ∀ (l : List String) (acc : List String),
    acc.Nodup → (l.foldl (fun acc k => if k ∈ acc then acc else acc ++ [k]) acc).Nodup
  | [], acc, h => h
  | k :: rest, acc, h => by
    rw [List.foldl_cons]
    by_cases hk : k ∈ acc
    · rw [if_pos hk]
      exact dedupKeys_nodup_aux rest acc h
    · rw [if_neg hk]
      refine dedupKeys_nodup_aux rest _ ?_
      refine List.Nodup.append h (List.nodup_singleton k) ?_
      intro x hx hxk
      rw [List.mem_singleton.mp hxk] at hx
      exact hk hx

theorem dedupKeys_nodup (l : List String) : (dedupKeys l).Nodup :=
  dedupKeys_nodup_aux l [] List.nodup_nil

theorem title_bucket_keys_nodup (t : String) : (_title_bucket_keys t).Nodup := by
  rw [_title_bucket_keys]
  rcases hts : (splitTokens (normTitleChars t.data)).filter (fun w => 2 ≤ w.length)
    with _ | ⟨t0, rest⟩
  · rw [hts]
    exact List.nodup_nil
  · rw [hts]
    exact dedupKeys_nodup _

theorem keysOf_nodup (g : List NArt) : (keysOf g).Nodup :=
  title_bucket_keys_nodup _

theorem dstep_some {thr : ℚ} {st : DState} {grp : List NArt} {i : Nat}
    (hf : (candIdx st (keysOf grp)).find?
      (fun j => simPass thr (baseOf grp) (clusterAt st j)) = some i) :
    dstep thr st grp = ⟨st.merged.set i (clusterAt st i ++ grp), st.buckets⟩ := by
  unfold dstep
  rw [hf]

theorem dstep_none {thr : ℚ} {st : DState} {grp : List NArt}
    (hf : (candIdx st (keysOf grp)).find?
      (fun j => simPass thr (baseOf grp) (clusterAt st j)) = none) :
    dstep thr st grp =
      ⟨st.merged ++ [grp], addKeys st.buckets (keysOf grp) st.merged.length⟩ := by
  unfold dstep
  rw [hf]

theorem clusterAt_ne {st : DState} (h : DFull st) {i : Nat}
    (hi : i < st.merged.length) : clusterAt st i ≠ [] :=
  h.1 _ (getD_mem hi)

theorem headD_append_of_ne {g h : List NArt} {d : NArt} (hg : g ≠ []) :
    (g ++ h).headD d = g.headD d := by
  cases g with
  | nil => exact absurd rfl hg
  | cons a rest => rfl

theorem find?_some_lt {thr : ℚ} {st : DState} {grp : List NArt} {i : Nat}
    (hinv : DFull st)
    (hf : (candIdx st (keysOf grp)).find?
      (fun j => simPass thr (baseOf grp) (clusterAt st j)) = some i) :
    i < st.merged.length := by
  have hm := List.mem_of_find?_eq_some hf
  obtain ⟨k, _, hik⟩ := mem_candIdx.mp hm
  exact (hinv.2.1 k i hik).1

theorem dstep_preserves {thr : ℚ} {st : DState} {grp : List NArt}
    (hinv : DFull st) (hgrp : grp ≠ []) : DFull (dstep thr st grp) := by
  rcases hf : (candIdx st (keysOf grp)).find?
      (fun j => simPass thr (baseOf grp) (clusterAt st j)) with _ | i
  · -- append case
    rw [dstep_none hf]
    refine ⟨?_, ?_, ?_⟩
    · intro g hg
      rcases List.mem_append.mp hg with h1 | h1
      · exact hinv.1 g h1
      · rw [List.mem_singleton.mp h1]
        exact hgrp
    · intro k i hi
      simp only at hi
      rw [bucketGet_addKeys _ _ _ _ (keysOf_nodup grp)] at hi
      rcases List.mem_append.mp hi with h1 | h1
      · obtain ⟨hlt, hk⟩ := hinv.2.1 k i h1
        constructor
        · simp only [List.length_append, List.length_singleton]
          omega
        · have he : clusterAt ⟨st.merged ++ [grp], addKeys st.buckets (keysOf grp) st.merged.length⟩ i = clusterAt st i := by
            rw [clusterAt, clusterAt]
            exact getD_append_lt _ hlt
          rw [he]
          exact hk
      · by_cases hmem : k ∈ keysOf grp
        · rw [if_pos hmem, List.mem_singleton] at h1
          subst h1
          constructor
          · simp only [List.length_append, List.length_singleton]
            omega
          · have he : clusterAt ⟨st.merged ++ [grp], addKeys st.buckets (keysOf grp) st.merged.length⟩ st.merged.length = grp := by
              rw [clusterAt]
              exact getD_append_len _ _
            rw [he]
            exact hmem
        · rw [if_neg hmem] at h1
          simp at h1
    · intro i hlen k hk
      simp only [List.length_append, List.length_singleton] at hlen
      simp only
      rw [bucketGet_addKeys _ _ _ _ (keysOf_nodup grp)]
      by_cases hi : i < st.merged.length
      · have he : clusterAt ⟨st.merged ++ [grp], addKeys st.buckets (keysOf grp) st.merged.length⟩ i = clusterAt st i := by
          rw [clusterAt, clusterAt]
          exact getD_append_lt _ hi
        rw [he] at hk
        exact List.mem_append.mpr (Or.inl (hinv.2.2 i hi k hk))
      · have hieq : i = st.merged.length := by omega
        subst hieq
        have he : clusterAt ⟨st.merged ++ [grp], addKeys st.buckets (keysOf grp) st.merged.length⟩ st.merged.length = grp := by
          rw [clusterAt]
          exact getD_append_len _ _
        rw [he] at hk
        refine List.mem_append.mpr (Or.inr ?_)
        rw [if_pos hk]
        exact List.mem_singleton.mpr rfl
  · -- merge case
    rw [dstep_some hf]
    have hlt := find?_some_lt hinv hf
    have hcne := clusterAt_ne hinv hlt
    have hbase : ∀ j, clusterAt ⟨st.merged.set i (clusterAt st i ++ grp), st.buckets⟩ j =
        if j = i then clusterAt st i ++ grp else clusterAt st j := by
      intro j
      by_cases hj : j = i
      · subst hj
        rw [if_pos rfl, clusterAt]
        exact getD_set_self _ hlt
      · rw [if_neg hj, clusterAt, clusterAt]
        exact getD_set_ne _ hj
    have hkeys : ∀ j, keysOf (clusterAt ⟨st.merged.set i (clusterAt st i ++ grp), st.buckets⟩ j) =
        keysOf (clusterAt st j) := by
      intro j
      rw [hbase j]
      by_cases hj : j = i
      · rw [if_pos hj, keysOf, keysOf, baseOf, baseOf, headD_append_of_ne hcne, hj]
      · rw [if_neg hj]
    refine ⟨?_, ?_, ?_⟩
    · intro g hg
      simp only at hg
      rcases List.mem_or_eq_of_mem_set hg with h1 | h1
      · exact hinv.1 g h1
      · rw [h1]
        intro hc
        rw [List.append_eq_nil] at hc
        exact hgrp hc.2
    · intro k j hj
      simp only at hj
      obtain ⟨hl, hk⟩ := hinv.2.1 k j hj
      constructor
      · simp only [List.length_set]
        exact hl
      · rw [hkeys j]
        exact hk
    · intro j hlen k hk
      simp only [List.length_set] at hlen
      rw [hkeys j] at hk
      exact hinv.2.2 j hlen k hk

theorem flatten_set_perm {α : Type} : ∀ (l : List (List α)) (i : Nat) (g : List α),
    i < l.length →
    (l.set i (l.getD i [] ++ g)).flatten.Perm (l.flatten ++ g)
  | [], i, g, h => by simp at h
  | x :: rest, 0, g, _ => by
    simp only [List.getD_cons_zero, List.set_cons_zero, List.flatten_cons]
    rw [List.append_assoc, List.append_assoc]
    exact List.Perm.append_left x List.perm_append_comm
  | x :: rest, i + 1, g, h => by
    simp only [List.getD_cons_succ, List.set_cons_succ, List.flatten_cons]
    rw [List.append_assoc]
    exact List.Perm.append_left x (flatten_set_perm rest i g (by simpa using h))

theorem dstep_flatten_perm {thr : ℚ} {st : DState} {grp : List NArt}
    (hinv : DFull st) :
    (dstep thr st grp).merged.flatten.Perm (st.merged.flatten ++ grp) := by
  rcases hf : (candIdx st (keysOf grp)).find?
      (fun j => simPass thr (baseOf grp) (clusterAt st j)) with _ | i
  · rw [dstep_none hf]
    simp
  · rw [dstep_some hf]
    have hlt := find?_some_lt hinv hf
    exact flatten_set_perm st.merged i grp hlt

theorem dfold_inv : ∀ (gs : List (List NArt)) (thr : ℚ) (st : DState),
    DFull st → (∀ g ∈ gs, g ≠ []) →
    DFull (gs.foldl (dstep thr) st) ∧
    (gs.foldl (dstep thr) st).merged.flatten.Perm (st.merged.flatten ++ gs.flatten)
  | [], thr, st, hinv, _ => ⟨hinv, by simp⟩
  | g :: rest, thr, st, hinv, hne => by
    have hg : g ≠ [] := hne g (List.mem_cons_self g rest)
    have hrest : ∀ x ∈ rest, x ≠ [] := fun x hx => hne x (List.mem_cons_of_mem g hx)
    have h1 := dfold_inv rest thr (dstep thr st g) (dstep_preserves hinv hg) hrest
    refine ⟨h1.1, ?_⟩
    rw [List.foldl_cons]
    refine h1.2.trans ?_
    have h2 := List.Perm.append_right rest.flatten (@dstep_flatten_perm thr st g hinv)
    refine h2.trans ?_
    rw [List.flatten_cons, List.append_assoc]

theorem stage1_groups_ne {arts : List NArt} {g : List NArt} (hg : g ∈ stage1 arts) :
    g ≠ [] := by
  rw [stage1] at hg
  obtain ⟨p, hp, he⟩ := List.mem_map.mp hg
  exact he ▸ exactMapOf_ne arts p hp

theorem mergedGroups_flatten_perm (thr : ℚ) (arts : List Art) :
    (mergedGroups thr arts).flatten.Perm (tagArts arts) := by
  rw [mergedGroups]
  have h := dfold_inv (stage1 (tagArts arts)) thr ⟨[], []⟩ DFull_init
    (fun g hg => stage1_groups_ne hg)
  refine h.2.trans ?_
  simp only [List.flatten_nil, List.nil_append]
  exact stage1_flatten_perm (tagArts arts)

theorem mergedGroups_DFull (thr : ℚ) (arts : List Art) :
    DFull ((stage1 (tagArts arts)).foldl (dstep thr) ⟨[], []⟩) :=
  (dfold_inv (stage1 (tagArts arts)) thr ⟨[], []⟩ DFull_init
    (fun g hg => stage1_groups_ne hg)).1

theorem mergedGroups_ne {thr : ℚ} {arts : List Art} {g : List NArt}
    (hg : g ∈ mergedGroups thr arts) : g ≠ [] :=
  (mergedGroups_DFull thr arts).1 g hg

theorem tagArts_map_idx (arts : List Art) :
    (tagArts arts).map NArt.idx = List.range arts.length := by
  rw [tagArts, List.map_map]
  have he : (NArt.idx ∘ fun p : Nat × Art => NArt.mk p.1 p.2) = Prod.fst := rfl
  rw [he, List.enum_map_fst]

theorem mergedGroups_idx_nodup {thr : ℚ} {arts : List Art} {g : List NArt}
    (hg : g ∈ mergedGroups thr arts) : (g.map NArt.idx).Nodup := by
  have hperm := (mergedGroups_flatten_perm thr arts).map NArt.idx
  have hnd : ((mergedGroups thr arts).flatten.map NArt.idx).Nodup := by
    rw [hperm.nodup_iff, tagArts_map_idx]
    exact List.nodup_range _
  have hsub : List.Sublist g (mergedGroups thr arts).flatten := List.sublist_flatten_of_mem hg
  exact hnd.sublist (hsub.map NArt.idx)

end News3

namespace News3

theorem filter_ne_idx_length : ∀ (g : List NArt) (rep : NArt),
    (g.map NArt.idx).Nodup → rep ∈ g →
    (g.filter fun a => a.idx != rep.idx).length = g.length - 1
  | [], rep, _, hr => absurd hr (List.not_mem_nil rep)
  | a :: rest, rep, hnd, hr => by
    rw [List.map_cons, List.nodup_cons] at hnd
    by_cases ha : a.idx = rep.idx
    · rw [List.filter_cons, if_neg (by simp [ha])]
      have hall : ∀ x ∈ rest, (x.idx != rep.idx) = true := by
        intro x hx
        simp only [bne_iff_ne, ne_eq]
        intro he
        apply hnd.1
        rw [ha, ← he]
        exact List.mem_map_of_mem NArt.idx hx
      rw [List.filter_eq_self.mpr hall]
      simp
    · rw [List.filter_cons, if_pos (by simp [ha])]
      have hrrest : rep ∈ rest := by
        rcases List.mem_cons.mp hr with h1 | h1
        · exact absurd (congrArg NArt.idx h1.symm) ha
        · exact h1
      have hlen := filter_ne_idx_length rest rep hnd.2 hrrest
      have hpos : 1 ≤ rest.length := List.length_pos.mpr (List.ne_nil_of_mem hrrest)
      simp only [List.length_cons, hlen]
      omega

/-- C2 (amended): for every cluster produced by `dedupe_and_group_articles`,
the representative record (as an object, i.e. by the tagged identity used
for Python's `a is rep`) is never an entry of its own duplicates list: the
duplicates list consists of exactly the other `len(cluster) - 1` members,
each with an identity different from the representative's.  (The
NormalizedKey half of the original claim is false — see the counterexample
— because a cluster may contain exact key-duplicates of its
representative.) -/
theorem C2_representative_not_own_duplicate (thr : ℚ) (arts : List Art) :
    ∀ g ∈ mergedGroups thr arts,
      _pick_representative g ∈ g ∧
      (dupEntriesOf g (_pick_representative g)).length = g.length - 1 ∧
      ∀ e ∈ dupEntriesOf g (_pick_representative g),
        ∃ a ∈ g, a.idx ≠ (_pick_representative g).idx ∧
          e = (a.art.source, a.art.link, a.art.title) := by
  intro g hg
  have hne := mergedGroups_ne hg
  have hmem := pick_representative_mem hne
  refine ⟨hmem, ?_, ?_⟩
  · rw [dupEntriesOf, List.length_map]
    exact filter_ne_idx_length g _ (mergedGroups_idx_nodup hg) hmem
  · intro e he
    rw [dupEntriesOf] at he
    obtain ⟨a, ha, hae⟩ := List.mem_map.mp he
    have hf := List.of_mem_filter ha
    refine ⟨a, List.mem_of_mem_filter ha, ?_, hae.symm⟩
    simpa using hf

def c2art : Art := ⟨"렌즈 신제품 발표", "http://x.com/p", "요약 내용", "뉴시스"⟩

/-- Counterexample to C2 as stated: feeding two exact-duplicate records in
produces one cluster whose duplicates list contains an entry with the same
NormalizedKey as the representative. -/
theorem C2_counterexample :
    ∃ p ∈ dedupe_and_group_articles (73 / 100) [c2art, c2art],
      ∃ e ∈ p.2, (_normalize_url e.2.1, _normalize_title e.2.2) = nkey p.1.art := by
  decide

def c2grp : List NArt := [⟨0, c2art⟩, ⟨1, c2art⟩]

/-- Witness for C2 (amended) on the cluster formed from the two
exact-duplicate records. -/
theorem C2_representative_not_own_duplicate_witness :
    _pick_representative c2grp ∈ c2grp ∧
    (dupEntriesOf c2grp (_pick_representative c2grp)).length = c2grp.length - 1 ∧
    ∀ e ∈ dupEntriesOf c2grp (_pick_representative c2grp),
      ∃ a ∈ c2grp, a.idx ≠ (_pick_representative c2grp).idx ∧
        e = (a.art.source, a.art.link, a.art.title) :=
  C2_representative_not_own_duplicate (73 / 100) [c2art, c2art] c2grp (by decide)

end News3

namespace News3

theorem find?_split {α : Type} (p : α → Bool) : ∀ {l : List α} {a : α},
    l.find? p = some a →
    ∃ pre post, l = pre ++ a :: post ∧ (∀ x ∈ pre, p x = false) ∧ p a = true
  | [], a, h => by simp at h
  | x :: rest, a, h => by
    rw [List.find?_cons] at h
    rcases hp : p x with _ | _
    · rw [hp] at h
      obtain ⟨pre, post, he, hpre, hpa⟩ := find?_split p h
      refine ⟨x :: pre, post, by rw [he, List.cons_append], ?_, hpa⟩
      intro y hy
      rcases List.mem_cons.mp hy with h1 | h1
      · rw [h1]
        exact hp
      · exact hpre y h1
    · rw [hp] at h
      rw [Option.some_inj] at h
      subst h
      exact ⟨[], rest, rfl, by intro y hy; simp at hy, hp⟩

/-- Abbreviation: the stage-2 state after folding a list of stage-1 groups
from the empty initial state. -/
def stAfter (thr : ℚ) (gs : List (List NArt)) : DState :=
  gs.foldl (dstep thr) ⟨[], []⟩

theorem stAfter_DFull (thr : ℚ) (gs : List (List NArt))
    (hgs : ∀ g ∈ gs, g ≠ []) : DFull (stAfter thr gs) :=
  (dfold_inv gs thr ⟨[], []⟩ DFull_init hgs).1

/-- C3: in the stage-2 pass of `dedupe_and_group_articles`, a stage-1 group
is merged into an earlier cluster if and only if some already-finalized
cluster shares at least one title-bucket key with it and passes the
similarity test (summary-vs-summary when both first-record summaries are
non-empty, otherwise title-vs-title, compared with ≥ threshold); the
candidates are exactly the earlier clusters sharing a bucket key; when a
merge happens it extends the *first* candidate in scan order that passes
(first-match wins), leaving every candidate scanned before it failing the
test. -/
theorem C3_stage2_merge_rule (thr : ℚ) (gs : List (List NArt)) (grp : List NArt)
    (hgs : ∀ g ∈ gs, g ≠ []) (hgrp : grp ≠ []) :
    (∀ i, i ∈ candIdx (stAfter thr gs) (keysOf grp) ↔
      (i < (stAfter thr gs).merged.length ∧
        ∃ k ∈ keysOf grp, k ∈ keysOf (clusterAt (stAfter thr gs) i))) ∧
    ((dstep thr (stAfter thr gs) grp).merged.length =
        (stAfter thr gs).merged.length ↔
      ∃ i < (stAfter thr gs).merged.length,
        (∃ k ∈ keysOf grp, k ∈ keysOf (clusterAt (stAfter thr gs) i)) ∧
        simPass thr (baseOf grp) (clusterAt (stAfter thr gs) i) = true) ∧
    (∀ i, (candIdx (stAfter thr gs) (keysOf grp)).find?
        (fun j => simPass thr (baseOf grp) (clusterAt (stAfter thr gs) j)) = some i →
      ∃ pre post,
        candIdx (stAfter thr gs) (keysOf grp) = pre ++ i :: post ∧
        (∀ j ∈ pre, simPass thr (baseOf grp) (clusterAt (stAfter thr gs) j) = false) ∧
        simPass thr (baseOf grp) (clusterAt (stAfter thr gs) i) = true ∧
        (dstep thr (stAfter thr gs) grp).merged =
          (stAfter thr gs).merged.set i (clusterAt (stAfter thr gs) i ++ grp)) ∧
    (∀ cluster : List NArt, simPass thr (baseOf grp) cluster =
      decide (thr ≤
        if (baseOf grp).art.summary ≠ "" ∧ (baseOf cluster).art.summary ≠ "" then
          _similarity (baseOf grp).art.summary (baseOf cluster).art.summary
        else _similarity (baseOf grp).art.title (baseOf cluster).art.title)) := by
  have hinv := stAfter_DFull thr gs hgs
  have hchar : ∀ i, i ∈ candIdx (stAfter thr gs) (keysOf grp) ↔
      (i < (stAfter thr gs).merged.length ∧
        ∃ k ∈ keysOf grp, k ∈ keysOf (clusterAt (stAfter thr gs) i)) := by
    intro i
    rw [mem_candIdx]
    constructor
    · rintro ⟨k, hk, hik⟩
      obtain ⟨hlt, hk2⟩ := hinv.2.1 k i hik
      exact ⟨hlt, k, hk, hk2⟩
    · rintro ⟨hlt, k, hk, hk2⟩
      exact ⟨k, hk, hinv.2.2 i hlt k hk2⟩
  refine ⟨hchar, ?_, ?_, ?_⟩
  · rcases hf : (candIdx (stAfter thr gs) (keysOf grp)).find?
        (fun j => simPass thr (baseOf grp) (clusterAt (stAfter thr gs) j)) with _ | i
    · rw [dstep_none hf]
      simp only [List.length_append, List.length_singleton]
      constructor
      · intro h
        omega
      · rintro ⟨i, hlt, hshare, hp⟩
        have hmem : i ∈ candIdx (stAfter thr gs) (keysOf grp) :=
          (hchar i).mpr ⟨hlt, hshare⟩
        have := List.find?_eq_none.mp hf i hmem
        rw [hp] at this
        exact absurd rfl this
    · rw [dstep_some hf]
      simp only [List.length_set]
      constructor
      · intro _
        have hmem := List.mem_of_find?_eq_some hf
        have hp := List.find?_some hf
        obtain ⟨hlt, hshare⟩ := (hchar i).mp hmem
        exact ⟨i, hlt, hshare, hp⟩
      · intro _
        trivial
  · intro i hf
    obtain ⟨pre, post, he, hpre, hpa⟩ := find?_split _ hf
    refine ⟨pre, post, he, hpre, hpa, ?_⟩
    rw [dstep_some hf]
  · intro cluster
    rw [simPass]
    simp only [baseOf]
    by_cases h1 : (grp.headD default).art.summary = "" <;>
      by_cases h2 : (cluster.headD default).art.summary = "" <;>
      simp [h1, h2]

end News3

namespace News3

def c3a : Art := ⟨"렌즈 신제품 출시 행사", "http://a.com/1", "", "s1"⟩

def c3b : Art := ⟨"렌즈 신제품 출시 행사 개최", "http://b.com/2", "", "s2"⟩

def c3gs : List (List NArt) := [[⟨0, c3a⟩]]

def c3grp : List NArt := [⟨1, c3b⟩]

/-- Witness for C3 with one finalized cluster and one incoming group whose
titles share bucket keys. -/
theorem C3_stage2_merge_rule_witness :
    (∀ i, i ∈ candIdx (stAfter (60 / 100) c3gs) (keysOf c3grp) ↔
      (i < (stAfter (60 / 100) c3gs).merged.length ∧
        ∃ k ∈ keysOf c3grp, k ∈ keysOf (clusterAt (stAfter (60 / 100) c3gs) i))) ∧
    ((dstep (60 / 100) (stAfter (60 / 100) c3gs) c3grp).merged.length =
        (stAfter (60 / 100) c3gs).merged.length ↔
      ∃ i < (stAfter (60 / 100) c3gs).merged.length,
        (∃ k ∈ keysOf c3grp, k ∈ keysOf (clusterAt (stAfter (60 / 100) c3gs) i)) ∧
        simPass (60 / 100) (baseOf c3grp) (clusterAt (stAfter (60 / 100) c3gs) i) = true) ∧
    (∀ i, (candIdx (stAfter (60 / 100) c3gs) (keysOf c3grp)).find?
        (fun j => simPass (60 / 100) (baseOf c3grp)
          (clusterAt (stAfter (60 / 100) c3gs) j)) = some i →
      ∃ pre post,
        candIdx (stAfter (60 / 100) c3gs) (keysOf c3grp) = pre ++ i :: post ∧
        (∀ j ∈ pre, simPass (60 / 100) (baseOf c3grp)
          (clusterAt (stAfter (60 / 100) c3gs) j) = false) ∧
        simPass (60 / 100) (baseOf c3grp)
          (clusterAt (stAfter (60 / 100) c3gs) i) = true ∧
        (dstep (60 / 100) (stAfter (60 / 100) c3gs) c3grp).merged =
          (stAfter (60 / 100) c3gs).merged.set i
            (clusterAt (stAfter (60 / 100) c3gs) i ++ c3grp)) ∧
    (∀ cluster : List NArt, simPass (60 / 100) (baseOf c3grp) cluster =
      decide ((60 / 100 : ℚ) ≤
        if (baseOf c3grp).art.summary ≠ "" ∧ (baseOf cluster).art.summary ≠ "" then
          _similarity (baseOf c3grp).art.summary (baseOf cluster).art.summary
        else _similarity (baseOf c3grp).art.title (baseOf cluster).art.title)) :=
  C3_stage2_merge_rule (60 / 100) c3gs c3grp (by decide) (by decide)

end News3

namespace News3

/-! ### Cross-category duplicate removal
(`remove_cross_category_duplicates`, `newsletter.py` lines 213-231)

The single loop carrying `(seen, out)` is split into the kept-records part
and the seen-set part; the Python `set` is modelled as a list queried by
membership. -/

def rccdKeep (seen : List NKey) : List Art → List Art
  | [] => []
  | a :: rest =>
    if nkey a ∈ seen then rccdKeep seen rest
    else a :: rccdKeep (nkey a :: seen) rest

def rccdSeen (seen : List NKey) : List Art → List NKey
  | [] => seen
  | a :: rest =>
    if nkey a ∈ seen then rccdSeen seen rest
    else rccdSeen (nkey a :: seen) rest

def rccdAux (seen : List NKey) : List (List Art) → List (List Art)
  | [] => []
  | lst :: rest => rccdKeep seen lst :: rccdAux (rccdSeen seen lst) rest

/-- Embedding of `remove_cross_category_duplicates`: walk the category lists
in priority order with one global seen-set of NormalizedKeys, dropping any
record whose key was already seen. -/
def remove_cross_category_duplicates (lists : List (List Art)) : List (List Art) :=
  rccdAux [] lists

theorem rccdSeen_mem : ∀ (l : List Art) (seen : List NKey) (k : NKey),
    k ∈ rccdSeen seen l ↔ k ∈ seen ∨ k ∈ (rccdKeep seen l).map nkey
  | [], seen, k => by simp [rccdSeen, rccdKeep]
  | a :: rest, seen, k => by
    rw [rccdSeen, rccdKeep]
    by_cases ha : nkey a ∈ seen
    · rw [if_pos ha, if_pos ha]
      exact rccdSeen_mem rest seen k
    · rw [if_neg ha, if_neg ha]
      rw [rccdSeen_mem rest (nkey a :: seen) k]
      simp only [List.mem_cons, List.map_cons]
      tauto

theorem rccdKeep_mem : ∀ (l : List Art) (seen : List NKey) (a : Art),
    a ∈ rccdKeep seen l → a ∈ l ∧ nkey a ∉ seen
  | [], seen, a, h => by simp [rccdKeep] at h
  | b :: rest, seen, a, h => by
    rw [rccdKeep] at h
    by_cases hb : nkey b ∈ seen
    · rw [if_pos hb] at h
      obtain ⟨h1, h2⟩ := rccdKeep_mem rest seen a h
      exact ⟨List.mem_cons_of_mem b h1, h2⟩
    · rw [if_neg hb] at h
      rcases List.mem_cons.mp h with h1 | h1
      · subst h1
        exact ⟨List.mem_cons_self a rest, hb⟩
      · obtain ⟨h1', h2⟩ := rccdKeep_mem rest (nkey b :: seen) a h1
        exact ⟨List.mem_cons_of_mem b h1', fun hc => h2 (List.mem_cons_of_mem _ hc)⟩

theorem rccdKeep_key_not_seen {l : List Art} {seen : List NKey} {k : NKey}
    (h : k ∈ (rccdKeep seen l).map nkey) : k ∉ seen := by
  obtain ⟨a, ha, he⟩ := List.mem_map.mp h
  exact he ▸ (rccdKeep_mem l seen a ha).2

theorem rccdKeep_nodup : ∀ (l : List Art) (seen : List NKey),
    ((rccdKeep seen l).map nkey).Nodup
  | [], seen => by simp [rccdKeep]
  | b :: rest, seen => by
    rw [rccdKeep]
    by_cases hb : nkey b ∈ seen
    · rw [if_pos hb]
      exact rccdKeep_nodup rest seen
    · rw [if_neg hb]
      rw [List.map_cons, List.nodup_cons]
      refine ⟨?_, rccdKeep_nodup rest (nkey b :: seen)⟩
      intro hc
      exact rccdKeep_key_not_seen hc (List.mem_cons_self _ _)

theorem rccdKeep_first : ∀ (l : List Art) (seen : List NKey) (a : Art),
    a ∈ rccdKeep seen l →
    l.find? (fun b => decide (nkey b = nkey a)) = some a
  | [], seen, a, h => by simp [rccdKeep] at h
  | b :: rest, seen, a, h => by
    rw [rccdKeep] at h
    rw [List.find?_cons]
    by_cases hb : nkey b ∈ seen
    · rw [if_pos hb] at h
      have hne : nkey b ≠ nkey a := by
        intro he
        exact (rccdKeep_mem rest seen a h).2 (he ▸ hb)
      rw [show (decide (nkey b = nkey a)) = false by simpa using hne]
      exact rccdKeep_first rest seen a h
    · rw [if_neg hb] at h
      rcases List.mem_cons.mp h with h1 | h1
      · rw [show (decide (nkey b = nkey a)) = true by simp [h1], h1]
      · have hne : nkey b ≠ nkey a := by
          intro he
          exact (rccdKeep_mem rest (nkey b :: seen) a h1).2
            (he ▸ List.mem_cons_self _ _)
        rw [show (decide (nkey b = nkey a)) = false by simpa using hne]
        exact rccdKeep_first rest (nkey b :: seen) a h1

theorem rccdSeen_subset : ∀ (l : List Art) (seen : List NKey) (k : NKey),
    k ∈ seen → k ∈ rccdSeen seen l
  | [], seen, k, h => h
  | a :: rest, seen, k, h => by
    rw [rccdSeen]
    by_cases ha : nkey a ∈ seen
    · rw [if_pos ha]
      exact rccdSeen_subset rest seen k h
    · rw [if_neg ha]
      exact rccdSeen_subset rest _ k (List.mem_cons_of_mem _ h)

theorem rccdSeen_complete : ∀ (l : List Art) (seen : List NKey) (a : Art),
    a ∈ l → nkey a ∈ rccdSeen seen l
  | [], _, a, h => absurd h (List.not_mem_nil a)
  | b :: rest, seen, a, h => by
    rw [rccdSeen]
    rcases List.mem_cons.mp h with h1 | h1
    · subst h1
      by_cases hb : nkey a ∈ seen
      · rw [if_pos hb]
        exact rccdSeen_subset rest seen _ hb
      · rw [if_neg hb]
        exact rccdSeen_subset rest _ _ (List.mem_cons_self _ _)
    · by_cases hb : nkey b ∈ seen
      · rw [if_pos hb]
        exact rccdSeen_complete rest seen a h1
      · rw [if_neg hb]
        exact rccdSeen_complete rest _ a h1

theorem rccdKeep_append (l1 l2 : List Art) : ∀ (seen : List NKey),
    rccdKeep seen (l1 ++ l2) = rccdKeep seen l1 ++ rccdKeep (rccdSeen seen l1) l2 := by
  induction l1 with
  | nil => intro seen; simp [rccdKeep, rccdSeen]
  | cons a rest ih =>
    intro seen
    rw [List.cons_append, rccdKeep, rccdKeep, rccdSeen]
    by_cases ha : nkey a ∈ seen
    · rw [if_pos ha, if_pos ha, if_pos ha, ih seen]
    · rw [if_neg ha, if_neg ha, if_neg ha, ih (nkey a :: seen), List.cons_append]

theorem rccdAux_flatten : ∀ (lists : List (List Art)) (seen : List NKey),
    (rccdAux seen lists).flatten = rccdKeep seen lists.flatten
  | [], seen => by simp [rccdAux, rccdKeep]
  | lst :: rest, seen => by
    rw [rccdAux, List.flatten_cons, List.flatten_cons, rccdKeep_append,
      rccdAux_flatten rest (rccdSeen seen lst)]

theorem rccdAux_length : ∀ (lists : List (List Art)) (seen : List NKey),
    (rccdAux seen lists).length = lists.length
  | [], _ => rfl
  | lst :: rest, seen => by
    rw [rccdAux, List.length_cons, List.length_cons, rccdAux_length rest]

end News3

namespace News3

/-- C8: after `remove_cross_category_duplicates`, the flattened output has
pairwise-distinct NormalizedKeys (so no key appears in two distinct output
lists), every kept record is the first record with its key in the
priority-ordered flattened input, every input key survives somewhere, and
the number of partitions is preserved. -/
theorem C8_cross_partition_suppression (lists : List (List Art)) :
    (((remove_cross_category_duplicates lists).flatten).map nkey).Nodup ∧
    (∀ pre l1 mid l2 post,
      remove_cross_category_duplicates lists = pre ++ l1 :: mid ++ l2 :: post →
      ∀ k, k ∈ l1.map nkey → k ∉ l2.map nkey) ∧
    (∀ a ∈ (remove_cross_category_duplicates lists).flatten,
      lists.flatten.find? (fun b => decide (nkey b = nkey a)) = some a) ∧
    (∀ a ∈ lists.flatten,
      ∃ b ∈ (remove_cross_category_duplicates lists).flatten, nkey b = nkey a) ∧
    (remove_cross_category_duplicates lists).length = lists.length := by
  have hfl : (remove_cross_category_duplicates lists).flatten =
      rccdKeep [] lists.flatten := rccdAux_flatten lists []
  have hnd : (((remove_cross_category_duplicates lists).flatten).map nkey).Nodup := by
    rw [hfl]
    exact rccdKeep_nodup lists.flatten []
  refine ⟨hnd, ?_, ?_, ?_, rccdAux_length lists []⟩
  · intro pre l1 mid l2 post hsplit k hk1 hk2
    rw [hsplit] at hnd
    simp only [List.flatten_append, List.flatten_cons, List.map_append,
      List.append_assoc] at hnd
    have h1 := (List.nodup_append.mp hnd).2.1
    have hd := List.disjoint_of_nodup_append h1
    exact hd hk1 (List.mem_append.mpr (Or.inr (List.mem_append.mpr (Or.inl hk2))))
  · intro a ha
    rw [hfl] at ha
    exact rccdKeep_first lists.flatten [] a ha
  · intro a ha
    have hseen := rccdSeen_complete lists.flatten [] a ha
    rw [rccdSeen_mem] at hseen
    rcases hseen with h1 | h1
    · exact absurd h1 (List.not_mem_nil _)
    · obtain ⟨b, hb, he⟩ := List.mem_map.mp h1
      rw [hfl]
      exact ⟨b, hb, he⟩

def c8x : Art := ⟨"중복 기사 제목", "http://x.com/a", "", "s1"⟩

def c8y : Art := ⟨"다른 기사 제목", "http://y.com/b", "", "s2"⟩

def c8lists : List (List Art) := [[c8x], [c8y, c8x], [c8x]]

/-- Witness for C8 on three partitions in which one story appears three
times: the key survives only in the first partition. -/
theorem C8_cross_partition_suppression_witness :
    ((((remove_cross_category_duplicates c8lists).flatten).map nkey).Nodup ∧
      (∀ pre l1 mid l2 post,
        remove_cross_category_duplicates c8lists = pre ++ l1 :: mid ++ l2 :: post →
        ∀ k, k ∈ l1.map nkey → k ∉ l2.map nkey) ∧
      (∀ a ∈ (remove_cross_category_duplicates c8lists).flatten,
        c8lists.flatten.find? (fun b => decide (nkey b = nkey a)) = some a) ∧
      (∀ a ∈ c8lists.flatten,
        ∃ b ∈ (remove_cross_category_duplicates c8lists).flatten, nkey b = nkey a) ∧
      (remove_cross_category_duplicates c8lists).length = c8lists.length) ∧
    remove_cross_category_duplicates c8lists = [[c8x], [c8y], []] :=
  ⟨C8_cross_partition_suppression c8lists, by decide⟩

end News3

namespace News3

/-! ### `resolve_final_url` (`scrapers.py` lines 422-429)

`parse_qs(urlparse(link).query)` with the first `url=` parameter value
returned after `unquote_plus` decoding; pairs with no `'='` or an empty raw
value are dropped (`keep_blank_values=False`).  Percent-decoding is modelled
at the byte/ASCII level. -/

def hexVal (c : Char) : Option Nat :=
  if 48 ≤ c.toNat ∧ c.toNat ≤ 57 then some (c.toNat - 48)
  else if 97 ≤ c.toNat ∧ c.toNat ≤ 102 then some (c.toNat - 87)
  else if 65 ≤ c.toNat ∧ c.toNat ≤ 70 then some (c.toNat - 55)
  else none

def unquotePlus : List Char → List Char
  | [] => []
  | '+' :: rest => ' ' :: unquotePlus rest
  | '%' :: h1 :: h2 :: rest =>
    match hexVal h1, hexVal h2 with
    | some a, some b => Char.ofNat (a * 16 + b) :: unquotePlus rest
    | _, _ => '%' :: unquotePlus (h1 :: h2 :: rest)
  | c :: rest => c :: unquotePlus rest

def splitOnAmpAux (cur : List Char) : List Char → List (List Char)
  | [] => [cur.reverse]
  | c :: rest =>
    if c = '&' then cur.reverse :: splitOnAmpAux [] rest
    else splitOnAmpAux (c :: cur) rest

/-- Python `qs.split('&')` (empty pieces kept; `parse_qsl` drops them
later). -/
def splitOnAmp (l : List Char) : List (List Char) := splitOnAmpAux [] l

def qsUrlValue : List (List Char) → Option (List Char)
  | [] => none
  | pair :: rest =>
    match (splitAtFirst '=' pair).2 with
    | none => qsUrlValue rest
    | some v =>
      if v ≠ [] ∧ unquotePlus (splitAtFirst '=' pair).1 = "url".data then
        some (unquotePlus v)
      else qsUrlValue rest

/-- Embedding of `resolve_final_url`. -/
def resolve_final_url (link : String) : String :=
  match qsUrlValue (splitOnAmp (urlparseChars link.data).query) with
  | some v => ⟨v⟩
  | none => link

/-- The in-place `a.link = resolve_final_url(a.link)` mutation. -/
def resolveArt (a : Art) : Art := { a with link := resolve_final_url a.link }

/-! ### `deduplicate_articles` (`scrapers.py` lines 508-531) -/

def dedupAux (seenU seenT : List String) : List Art → List Art
  | [] => []
  | a :: rest =>
    let a2 := resolveArt a
    let u := _normalize_url a2.link
    let t := _normalize_title a2.title
    if (u ≠ "" ∧ u ∈ seenU) ∨ (t ≠ "" ∧ t ∈ seenT) then dedupAux seenU seenT rest
    else
      a2 :: dedupAux (if u ≠ "" then u :: seenU else seenU)
        (if t ≠ "" then t :: seenT else seenT) rest

def dedupU (seenU seenT : List String) : List Art → List String
  | [] => seenU
  | a :: rest =>
    let a2 := resolveArt a
    let u := _normalize_url a2.link
    let t := _normalize_title a2.title
    if (u ≠ "" ∧ u ∈ seenU) ∨ (t ≠ "" ∧ t ∈ seenT) then dedupU seenU seenT rest
    else
      dedupU (if u ≠ "" then u :: seenU else seenU)
        (if t ≠ "" then t :: seenT else seenT) rest

def dedupT (seenU seenT : List String) : List Art → List String
  | [] => seenT
  | a :: rest =>
    let a2 := resolveArt a
    let u := _normalize_url a2.link
    let t := _normalize_title a2.title
    if (u ≠ "" ∧ u ∈ seenU) ∨ (t ≠ "" ∧ t ∈ seenT) then dedupT seenU seenT rest
    else
      dedupT (if u ≠ "" then u :: seenU else seenU)
        (if t ≠ "" then t :: seenT else seenT) rest

/-- Embedding of `deduplicate_articles`: resolve each link, then keep a
record unless its non-empty normalized URL or its non-empty normalized title
was seen on an earlier kept record; the two seen-sets are independent. -/
def deduplicate_articles (arts : List Art) : List Art := dedupAux [] [] arts

def urlKeys (kept : List Art) : List String :=
  (kept.map fun a => _normalize_url a.link).filter fun s => s ≠ ""

def titleKeys (kept : List Art) : List String :=
  (kept.map fun a => _normalize_title a.title).filter fun s => s ≠ ""

end News3

namespace News3

theorem urlKeys_cons (a : Art) (l : List Art) :
    urlKeys (a :: l) =
      if _normalize_url a.link ≠ "" then _normalize_url a.link :: urlKeys l
      else urlKeys l := by
  rw [urlKeys, urlKeys, List.map_cons, List.filter_cons]
  by_cases h : _normalize_url a.link ≠ ""
  · rw [if_pos (by simpa using h), if_pos h]
  · rw [if_neg (by simpa using h), if_neg h]

theorem titleKeys_cons (a : Art) (l : List Art) :
    titleKeys (a :: l) =
      if _normalize_title a.title ≠ "" then _normalize_title a.title :: titleKeys l
      else titleKeys l := by
  rw [titleKeys, titleKeys, List.map_cons, List.filter_cons]
  by_cases h : _normalize_title a.title ≠ ""
  · rw [if_pos (by simpa using h), if_pos h]
  · rw [if_neg (by simpa using h), if_neg h]

theorem dedupAux_append : ∀ (l1 l2 : List Art) (seenU seenT : List String),
    dedupAux seenU seenT (l1 ++ l2) =
      dedupAux seenU seenT l1 ++
        dedupAux (dedupU seenU seenT l1) (dedupT seenU seenT l1) l2
  | [], l2, seenU, seenT => by simp [dedupAux, dedupU, dedupT]
  | a :: rest, l2, seenU, seenT => by
    rw [List.cons_append, dedupAux, dedupAux, dedupU, dedupT]
    by_cases hc : (_normalize_url (resolveArt a).link ≠ "" ∧
        _normalize_url (resolveArt a).link ∈ seenU) ∨
        (_normalize_title (resolveArt a).title ≠ "" ∧
          _normalize_title (resolveArt a).title ∈ seenT)
    · simp only [hc, if_pos]
      exact dedupAux_append rest l2 seenU seenT
    · simp only [hc, if_neg, if_false]
      rw [List.cons_append, dedupAux_append rest l2]

theorem dedupU_mem : ∀ (l : List Art) (seenU seenT : List String) (k : String),
    k ∈ dedupU seenU seenT l ↔ k ∈ seenU ∨ k ∈ urlKeys (dedupAux seenU seenT l)
  | [], seenU, seenT, k => by simp [dedupU, dedupAux, urlKeys]
  | a :: rest, seenU, seenT, k => by
    rw [dedupU, dedupAux]
    by_cases hc : (_normalize_url (resolveArt a).link ≠ "" ∧
        _normalize_url (resolveArt a).link ∈ seenU) ∨
        (_normalize_title (resolveArt a).title ≠ "" ∧
          _normalize_title (resolveArt a).title ∈ seenT)
    · simp only [hc, if_pos]
      exact dedupU_mem rest seenU seenT k
    · simp only [hc, if_neg, if_false]
      rw [dedupU_mem rest _ _ k, urlKeys_cons]
      by_cases hu : _normalize_url (resolveArt a).link ≠ ""
      · rw [if_pos hu, if_pos hu]
        simp only [List.mem_cons]
        tauto
      · rw [if_neg hu, if_neg hu]

theorem dedupT_mem : ∀ (l : List Art) (seenU seenT : List String) (k : String),
    k ∈ dedupT seenU seenT l ↔ k ∈ seenT ∨ k ∈ titleKeys (dedupAux seenU seenT l)
  | [], seenU, seenT, k => by simp [dedupT, dedupAux, titleKeys]
  | a :: rest, seenU, seenT, k => by
    rw [dedupT, dedupAux]
    by_cases hc : (_normalize_url (resolveArt a).link ≠ "" ∧
        _normalize_url (resolveArt a).link ∈ seenU) ∨
        (_normalize_title (resolveArt a).title ≠ "" ∧
          _normalize_title (resolveArt a).title ∈ seenT)
    · simp only [hc, if_pos]
      exact dedupT_mem rest seenU seenT k
    · simp only [hc, if_neg, if_false]
      rw [dedupT_mem rest _ _ k, titleKeys_cons]
      by_cases ht : _normalize_title (resolveArt a).title ≠ ""
      · rw [if_pos ht, if_pos ht]
        simp only [List.mem_cons]
        tauto
      · rw [if_neg ht, if_neg ht]

theorem dedupAux_sublist : ∀ (l : List Art) (seenU seenT : List String),
    List.Sublist (dedupAux seenU seenT l) (l.map resolveArt)
  | [], _, _ => by simp [dedupAux]
  | a :: rest, seenU, seenT => by
    rw [dedupAux, List.map_cons]
    by_cases hc : (_normalize_url (resolveArt a).link ≠ "" ∧
        _normalize_url (resolveArt a).link ∈ seenU) ∨
        (_normalize_title (resolveArt a).title ≠ "" ∧
          _normalize_title (resolveArt a).title ∈ seenT)
    · simp only [hc, if_pos]
      exact List.Sublist.cons _ (dedupAux_sublist rest seenU seenT)
    · simp only [hc, if_neg, if_false]
      exact List.Sublist.cons₂ _ (dedupAux_sublist rest _ _)

/-- C10: `deduplicate_articles` preserves the relative order of kept records
(the output is a sublist of the link-resolved input), and a record appended
after a prefix is kept exactly when neither its non-empty normalized URL nor
its non-empty normalized title already occurs among the corresponding keys
of the earlier *kept* records — the two keys are checked independently — and
a record with both keys empty is always kept.  The decision depends only on
the prefix (later records never affect it). -/
theorem C10_deduplicate_articles (l pre : List Art) (a : Art) :
    List.Sublist (deduplicate_articles l) (l.map resolveArt) ∧
    (deduplicate_articles (pre ++ [a]) =
      deduplicate_articles pre ++
        (if (_normalize_url (resolveArt a).link ≠ "" ∧
              _normalize_url (resolveArt a).link ∈ urlKeys (deduplicate_articles pre)) ∨
            (_normalize_title (resolveArt a).title ≠ "" ∧
              _normalize_title (resolveArt a).title ∈ titleKeys (deduplicate_articles pre))
          then [] else [resolveArt a])) ∧
    (_normalize_url (resolveArt a).link = "" → _normalize_title (resolveArt a).title = "" →
      deduplicate_articles (pre ++ [a]) = deduplicate_articles pre ++ [resolveArt a]) ∧
    (∀ post, ∃ rest, deduplicate_articles (pre ++ a :: post) =
      deduplicate_articles (pre ++ [a]) ++ rest) := by
  have hsingle : ∀ (sU sT : List String), dedupAux sU sT [a] =
      if (_normalize_url (resolveArt a).link ≠ "" ∧
            _normalize_url (resolveArt a).link ∈ sU) ∨
          (_normalize_title (resolveArt a).title ≠ "" ∧
            _normalize_title (resolveArt a).title ∈ sT)
        then [] else [resolveArt a] := by
    intro sU sT
    rw [dedupAux]
    by_cases hc : (_normalize_url (resolveArt a).link ≠ "" ∧
        _normalize_url (resolveArt a).link ∈ sU) ∨
        (_normalize_title (resolveArt a).title ≠ "" ∧
          _normalize_title (resolveArt a).title ∈ sT)
    · simp only [hc, if_pos]
      rfl
    · simp only [hc, if_neg, if_false]
      rfl
  have hmain : deduplicate_articles (pre ++ [a]) =
      deduplicate_articles pre ++
        (if (_normalize_url (resolveArt a).link ≠ "" ∧
              _normalize_url (resolveArt a).link ∈ urlKeys (deduplicate_articles pre)) ∨
            (_normalize_title (resolveArt a).title ≠ "" ∧
              _normalize_title (resolveArt a).title ∈ titleKeys (deduplicate_articles pre))
          then [] else [resolveArt a]) := by
    have hiff : ((_normalize_url (resolveArt a).link ≠ "" ∧
          _normalize_url (resolveArt a).link ∈ dedupU [] [] pre) ∨
        (_normalize_title (resolveArt a).title ≠ "" ∧
          _normalize_title (resolveArt a).title ∈ dedupT [] [] pre)) ↔
        ((_normalize_url (resolveArt a).link ≠ "" ∧
          _normalize_url (resolveArt a).link ∈ urlKeys (deduplicate_articles pre)) ∨
        (_normalize_title (resolveArt a).title ≠ "" ∧
          _normalize_title (resolveArt a).title ∈ titleKeys (deduplicate_articles pre))) := by
      constructor
      · rintro (⟨h1, h2⟩ | ⟨h1, h2⟩)
        · rcases (dedupU_mem pre [] [] _).mp h2 with h3 | h3
          · exact absurd h3 (List.not_mem_nil _)
          · exact Or.inl ⟨h1, h3⟩
        · rcases (dedupT_mem pre [] [] _).mp h2 with h3 | h3
          · exact absurd h3 (List.not_mem_nil _)
          · exact Or.inr ⟨h1, h3⟩
      · rintro (⟨h1, h2⟩ | ⟨h1, h2⟩)
        · exact Or.inl ⟨h1, (dedupU_mem pre [] [] _).mpr (Or.inr h2)⟩
        · exact Or.inr ⟨h1, (dedupT_mem pre [] [] _).mpr (Or.inr h2)⟩
    rw [deduplicate_articles, dedupAux_append, hsingle, if_congr hiff rfl rfl]
    rfl
  refine ⟨dedupAux_sublist l [] [], hmain, ?_, ?_⟩
  · intro hu ht
    rw [hmain, if_neg ?_]
    rintro (⟨h1, _⟩ | ⟨h1, _⟩)
    · exact h1 hu
    · exact h1 ht
  · intro post
    refine ⟨dedupAux (dedupU [] [] (pre ++ [a])) (dedupT [] [] (pre ++ [a])) post, ?_⟩
    have he : pre ++ a :: post = (pre ++ [a]) ++ post := by simp
    rw [deduplicate_articles, he, dedupAux_append]
    rfl

end News3

namespace News3

def c10a : Art := ⟨"같은 제목", "http://a.com/1", "", ""⟩

def c10b : Art := ⟨"같은 제목!", "http://b.com/2", "", ""⟩

def c10e : Art := ⟨"", "", "", ""⟩

/-- Witness for C10: the keep-equation at a record with a different URL but
an equal normalized title, and the always-keep case for a record whose keys
are both empty. -/
theorem C10_deduplicate_articles_witness :
    (deduplicate_articles ([c10a] ++ [c10b]) =
      deduplicate_articles [c10a] ++
        (if (_normalize_url (resolveArt c10b).link ≠ "" ∧
              _normalize_url (resolveArt c10b).link ∈ urlKeys (deduplicate_articles [c10a])) ∨
            (_normalize_title (resolveArt c10b).title ≠ "" ∧
              _normalize_title (resolveArt c10b).title ∈ titleKeys (deduplicate_articles [c10a]))
          then [] else [resolveArt c10b])) ∧
    deduplicate_articles ([c10a] ++ [c10e]) = deduplicate_articles [c10a] ++ [resolveArt c10e] :=
  ⟨(C10_deduplicate_articles [c10a] [c10a] c10b).2.1,
   (C10_deduplicate_articles [c10a] [c10a] c10e).2.2.1 (by decide) (by decide)⟩

end News3

namespace News3

/-! ### Calendar model (CPython `datetime.date` ordinal arithmetic)

`date.toordinal` counts days of the proleptic Gregorian calendar with
0001-01-01 = 1; instants are seconds on the local (KST) wall-clock
timeline, so `published.date()` is floor-division by 86400. -/

def isLeap (y : Nat) : Bool := y % 4 = 0 && (y % 100 ≠ 0 || y % 400 = 0)

def monthDays (y m : Nat) : Nat :=
  if m = 2 then (if isLeap y then 29 else 28)
  else if m = 4 ∨ m = 6 ∨ m = 9 ∨ m = 11 then 30
  else 31

def daysBeforeMonthTable : Nat → Nat
  | 1 => 0
  | 2 => 31
  | 3 => 59
  | 4 => 90
  | 5 => 120
  | 6 => 151
  | 7 => 181
  | 8 => 212
  | 9 => 243
  | 10 => 273
  | 11 => 304
  | 12 => 334
  | _ => 0

def daysBeforeMonth (y m : Nat) : Nat :=
  daysBeforeMonthTable m + (if 2 < m ∧ isLeap y then 1 else 0)

/-- CPython `date(y, m, d).toordinal()`. -/
def toordinal (y m d : Nat) : Nat :=
  365 * (y - 1) + (y - 1) / 4 - (y - 1) / 100 + (y - 1) / 400 + daysBeforeMonth y m + d

/-- A wall-clock instant, in seconds, of the calendar day-and-time. -/
def mkSec (y m d hh mi : Nat) : Int :=
  (toordinal y m d : Int) * 86400 + hh * 3600 + mi * 60

/-- `instant.date()` as a day ordinal. -/
def dateOfSec (s : Int) : Int := s.fdiv 86400

/-! ### Naver relative/absolute time parsing
(`_parse_naver_time_text_to_published`, `scrapers.py` lines 435-468) -/

inductive RelUnit
  | sec
  | min
  | hour
  | day
deriving DecidableEq, Repr

def relUnitStr : RelUnit → String
  | .sec => "초"
  | .min => "분"
  | .hour => "시간"
  | .day => "일"

def relUnitSecs : RelUnit → Nat
  | .sec => 1
  | .min => 60
  | .hour => 3600
  | .day => 86400

def digitsVal (cs : List Char) : Nat :=
  cs.foldl (fun n c => n * 10 + (c.toNat - 48)) 0

def stripPre : List Char → List Char → Option (List Char)
  | [], cs => some cs
  | _ :: _, [] => none
  | p :: ps, c :: cs => if c = p then stripPre ps cs else none

def matchUnit (cs : List Char) : Option (RelUnit × List Char) :=
  match stripPre "초".data cs with
  | some rest => some (.sec, rest)
  | none =>
    match stripPre "분".data cs with
    | some rest => some (.min, rest)
    | none =>
      match stripPre "시간".data cs with
      | some rest => some (.hour, rest)
      | none =>
        match stripPre "일".data cs with
        | some rest => some (.day, rest)
        | none => none

/-- The anchored pattern `^\s*(\d+)\s*(초|분|시간|일)\s*전\s*$`. -/
def matchRel (cs : List Char) : Option (Nat × RelUnit) :=
  let cs1 := cs.dropWhile pySpace
  let ds := cs1.takeWhile Char.isDigit
  let cs2 := cs1.dropWhile Char.isDigit
  if ds = [] then none
  else
    match matchUnit (cs2.dropWhile pySpace) with
    | none => none
    | some (u, cs4) =>
      match stripPre "전".data (cs4.dropWhile pySpace) with
      | none => none
      | some cs5 => if cs5.dropWhile pySpace = [] then some (digitsVal ds, u) else none

def takeNDigits : Nat → List Char → Option (List Char × List Char)
  | 0, cs => some ([], cs)
  | _ + 1, [] => none
  | n + 1, c :: cs =>
    if c.isDigit then
      match takeNDigits n cs with
      | some (ds, r) => some (c :: ds, r)
      | none => none
    else none

/-- `(\d{1,2})\.` with the regex's greedy/backtracking behaviour. -/
def take12Dot (cs : List Char) : Option (Nat × List Char) :=
  match cs with
  | d1 :: rest1 =>
    if d1.isDigit then
      match rest1 with
      | d2 :: rest2 =>
        if d2.isDigit then
          match rest2 with
          | '.' :: rest3 => some (digitsVal [d1, d2], rest3)
          | _ => none
        else if d2 = '.' then some (digitsVal [d1], rest2)
        else none
      | [] => none
    else none
  | [] => none

/-- `\.?\s*$`. -/
def dotEnd (cs : List Char) : Bool :=
  match cs with
  | '.' :: rest => rest.dropWhile pySpace = []
  | _ => cs.dropWhile pySpace = []

/-- `(\d{1,2})\.?\s*$` (a 1-digit fallback after a failed 2-digit attempt
always fails, so the greedy choice is deterministic). -/
def take12End (cs : List Char) : Option Nat :=
  match cs with
  | d1 :: rest1 =>
    if d1.isDigit then
      match rest1 with
      | d2 :: rest2 =>
        if d2.isDigit then (if dotEnd rest2 then some (digitsVal [d1, d2]) else none)
        else if dotEnd rest1 then some (digitsVal [d1]) else none
      | [] => some (digitsVal [d1])
    else none
  | [] => none

/-- The anchored pattern `^\s*(\d{4})\.\s*(\d{1,2})\.\s*(\d{1,2})\.?\s*$`. -/
def matchAbs (cs : List Char) : Option (Nat × Nat × Nat) :=
  let cs1 := cs.dropWhile pySpace
  match takeNDigits 4 cs1 with
  | none => none
  | some (ys, r1) =>
    match r1 with
    | '.' :: r2 =>
      match take12Dot (r2.dropWhile pySpace) with
      | none => none
      | some (mo, r3) =>
        match take12End (r3.dropWhile pySpace) with
        | none => none
        | some d => some (digitsVal ys, mo, d)
    | _ => none

/-- Embedding of `_parse_naver_time_text_to_published` with the anchor
instant passed in; returns the resolved publish instant or `none`.  The
absolute branch builds `datetime(y, mo, d, 12, 0, 0)` and yields `none`
when the constructor would raise. -/
def _parse_naver_time_text_to_published (timeText : String) (anchor : Int) : Option Int :=
  if timeText = "" then none
  else
    let t := pyStrip timeText.data
    match matchRel t with
    | some (n, u) => some (anchor - n * relUnitSecs u)
    | none =>
      match matchAbs t with
      | some (y, mo, d) =>
        if 1 ≤ y ∧ 1 ≤ mo ∧ mo ≤ 12 ∧ 1 ≤ d ∧ d ≤ monthDays y mo then
          some (mkSec y mo d 12 0)
        else none
      | none => none

/-- `published = _parse_naver_time_text_to_published(...); if published is
None: published = _safe_now(tz)` (`scrapers.py` lines 642-645). -/
def naverPublishedOrNow (timeText : String) (anchor now : Int) : Int :=
  (_parse_naver_time_text_to_published timeText anchor).getD now

structure TArt where
  art : Art
  published : Int
deriving DecidableEq, Repr

/-- Embedding of `filter_yesterday_articles` (`scrapers.py` lines 823-826):
keep records whose publish date equals the filter-time "yesterday". -/
def filter_yesterday_articles (arts : List TArt) (now : Int) : List TArt :=
  arts.filter fun a => dateOfSec a.published == dateOfSec now - 1

end News3

namespace News3

def natChars (n : Nat) : List Char :=
  if h : n < 10 then [Char.ofNat (48 + n)]
  else natChars (n / 10) ++ [Char.ofNat (48 + n % 10)]
  termination_by n
  decreasing_by exact Nat.div_lt_self (by omega) (by decide)

/-- Canonical relative-time phrase `"N<unit> 전"`. -/
def relPhrase (n : Nat) (u : RelUnit) : String :=
  ⟨natChars n ++ (relUnitStr u).data ++ " 전".data⟩

theorem isDigit_ofNat_digit {k : Nat} (h : k ≤ 9) :
    (Char.ofNat (48 + k)).isDigit = true := by
  interval_cases k <;> decide

theorem digit_not_pySpace {c : Char} (h : c.isDigit = true) : pySpace c = false := by
  rcases hb : pySpace c with _ | _
  · rfl
  · simp only [pySpace, Bool.or_eq_true, decide_eq_true_eq] at hb
    rcases hb with ((((h1 | h1) | h1) | h1) | h1) | h1 <;> subst h1 <;>
      exact absurd h (by decide)

theorem natChars_ne (n : Nat) : natChars n ≠ [] := by
  rw [natChars]
  by_cases h : n < 10
  · rw [dif_pos h]
    simp
  · rw [dif_neg h]
    simp

theorem natChars_digits (n : Nat) : ∀ c ∈ natChars n, c.isDigit = true := by
  induction n using Nat.strong_induction_on with
  | _ n ih =>
    rw [natChars]
    by_cases h : n < 10
    · rw [dif_pos h]
      intro c hc
      rw [List.mem_singleton.mp hc]
      exact isDigit_ofNat_digit (by omega)
    · rw [dif_neg h]
      intro c hc
      rcases List.mem_append.mp hc with h1 | h1
      · exact ih (n / 10) (Nat.div_lt_self (by omega) (by decide)) c h1
      · rw [List.mem_singleton.mp h1]
        exact isDigit_ofNat_digit (by omega)

theorem digitsVal_append_single (xs : List Char) (c : Char) :
    digitsVal (xs ++ [c]) = digitsVal xs * 10 + (c.toNat - 48) := by
  rw [digitsVal, digitsVal, List.foldl_append]
  rfl

theorem digitsVal_natChars (n : Nat) : digitsVal (natChars n) = n := by
  induction n using Nat.strong_induction_on with
  | _ n ih =>
    rw [natChars]
    by_cases h : n < 10
    · rw [dif_pos h]
      have ht := toNat_ofNat_valid (48 + n) (by omega)
      simp [digitsVal, ht]
    · rw [dif_neg h, digitsVal_append_single,
        ih (n / 10) (Nat.div_lt_self (by omega) (by decide))]
      have ht := toNat_ofNat_valid (48 + n % 10) (by omega)
      rw [ht]
      omega

theorem takeWhile_append_all {p : Char → Bool} : ∀ {l r : List Char},
    (∀ c ∈ l, p c = true) → (∀ c, r.head? = some c → p c = false) →
    (l ++ r).takeWhile p = l ∧ (l ++ r).dropWhile p = r
  | [], r, _, hr => by
    cases r with
    | nil => exact ⟨rfl, rfl⟩
    | cons c rest =>
      have := hr c rfl
      constructor
      · simp [List.takeWhile, this]
      · simp [List.dropWhile, this]
  | c :: rest, r, hl, hr => by
    have hc := hl c (List.mem_cons_self c rest)
    have h2 := takeWhile_append_all (fun x hx => hl x (List.mem_cons_of_mem c hx)) hr
    constructor
    · rw [List.cons_append, List.takeWhile_cons, hc, h2.1]
      simp
    · rw [List.cons_append, List.dropWhile_cons, hc, h2.2]
      simp

end News3

namespace News3

theorem head?_append_ne {l r : List Char} (h : l ≠ []) :
    (l ++ r).head? = l.head? := by
  cases l with
  | nil => exact absurd rfl h
  | cons c rest => rfl

theorem relPhrase_data (n : Nat) (u : RelUnit) :
    (relPhrase n u).data = natChars n ++ ((relUnitStr u).data ++ [' ', '전']) := by
  rw [relPhrase]
  show natChars n ++ (relUnitStr u).data ++ " 전".data = _
  rw [List.append_assoc]

/-- C5: every relative phrase `N<unit> 전` with unit among 초/분/시간/일
resolves to the anchor minus `N` of that unit — never wall-clock "now" —
and in particular `"3시간 전"` with anchor 2026-01-12 09:00 KST resolves to
2026-01-12 06:00. -/
theorem C5_relative_time_resolution :
    (∀ (n : Nat) (u : RelUnit) (anchor : Int),
      _parse_naver_time_text_to_published (relPhrase n u) anchor =
        some (anchor - n * relUnitSecs u)) ∧
    _parse_naver_time_text_to_published "3시간 전" (mkSec 2026 1 12 9 0) =
      some (mkSec 2026 1 12 6 0) := by
  constructor
  · intro n u anchor
    have hdata := relPhrase_data n u
    have hne : relPhrase n u ≠ "" := by
      intro heq
      have h0 : (relPhrase n u).data = [] := by rw [heq]
      rw [hdata] at h0
      exact natChars_ne n (List.append_eq_nil.mp h0).1
    have hdig := natChars_digits n
    have hhead : ∀ c, ((relPhrase n u).data).head? = some c → pySpace c = false := by
      intro c hc
      rw [hdata, head?_append_ne (natChars_ne n)] at hc
      exact digit_not_pySpace (hdig c (List.mem_of_mem_head? hc))
    have hlast : ∀ c, ((relPhrase n u).data).getLast? = some c → pySpace c = false := by
      intro c hc
      rw [hdata] at hc
      have h1 : (natChars n ++ ((relUnitStr u).data ++ [' ', '전'])) =
          (natChars n ++ ((relUnitStr u).data ++ [' '])) ++ ['전'] := by
        simp
      rw [h1, List.getLast?_concat, Option.some_inj] at hc
      rw [← hc]
      decide
    have hrnd : ∀ c, ((relUnitStr u).data ++ [' ', '전']).head? = some c →
        c.isDigit = false := by
      cases u <;> (intro c hc; injection hc with hc; rw [← hc]; decide)
    have hsplit := @takeWhile_append_all Char.isDigit _ _ hdig hrnd
    have hd2 : (natChars n ++ ((relUnitStr u).data ++ [' ', '전'])).dropWhile pySpace =
        natChars n ++ ((relUnitStr u).data ++ [' ', '전']) := by
      apply dropWhile_pySpace_eq_self
      intro c hc
      rw [head?_append_ne (natChars_ne n)] at hc
      exact digit_not_pySpace (hdig c (List.mem_of_mem_head? hc))
    rw [_parse_naver_time_text_to_published, if_neg hne,
      pyStrip_eq_self hhead hlast, hdata]
    simp only [matchRel, hd2, hsplit.1, hsplit.2]
    rw [if_neg (natChars_ne n), digitsVal_natChars]
    cases u <;> rfl
  · decide

end News3

namespace News3

/-- Counterexample to C1 as stated: for a record whose time text matches no
extraction strategy, the scraper assigns the *current time* to `published`
(`published = _safe_now(tz)`, `scrapers.py` lines 644-645); the record is
not marked date-unknown and `published` is not absent. -/
theorem C1_counterexample :
    _parse_naver_time_text_to_published "어제" 1000000 = none ∧
    naverPublishedOrNow "어제" 1000000 999 = 999 := by
  decide

def c1art : Art := ⟨"날짜 없는 기사", "http://x.com/1", "", "s"⟩

/-- C1 (amended): when no date-extraction strategy succeeds the code
defaults `published` to the fetch-time "now" (fail-open, not a dateUnknown
marker); since `filter_yesterday_articles` keeps only records whose publish
date equals the filter-time yesterday, such a record is excluded whenever
the filter runs on the same calendar day as the fetch. -/
theorem C1_no_date_fail_open (t : String) (anchor nowFetch nowFilter : Int) (a : Art)
    (h : _parse_naver_time_text_to_published t anchor = none) :
    naverPublishedOrNow t anchor nowFetch = nowFetch ∧
    (dateOfSec nowFetch = dateOfSec nowFilter →
      filter_yesterday_articles [⟨a, naverPublishedOrNow t anchor nowFetch⟩] nowFilter = []) := by
  have h1 : naverPublishedOrNow t anchor nowFetch = nowFetch := by
    rw [naverPublishedOrNow, h]
    rfl
  refine ⟨h1, ?_⟩
  intro hdate
  rw [filter_yesterday_articles, h1]
  have h2 : (dateOfSec nowFetch == dateOfSec nowFilter - 1) = false := by
    rw [hdate]
    simp only [beq_eq_false_iff_ne, ne_eq]
    omega
  simp [List.filter, h2]

/-- Witness for C1 (amended) at a concrete unparseable time text and a
fetch/filter pair on the same calendar day. -/
theorem C1_no_date_fail_open_witness :
    naverPublishedOrNow "어제" 0 (mkSec 2026 10 12 9 0) = mkSec 2026 10 12 9 0 ∧
    filter_yesterday_articles
      [⟨c1art, naverPublishedOrNow "어제" 0 (mkSec 2026 10 12 9 0)⟩]
      (mkSec 2026 10 12 23 0) = [] :=
  ⟨(C1_no_date_fail_open "어제" 0 (mkSec 2026 10 12 9 0) (mkSec 2026 10 12 23 0) c1art
      (by decide)).1,
   (C1_no_date_fail_open "어제" 0 (mkSec 2026 10 12 9 0) (mkSec 2026 10 12 23 0) c1art
      (by decide)).2 (by decide)⟩

end News3

namespace News3

/-! ### `date_filter.py`: regex scanners

Each of the seven concrete patterns of `date_filter.py` is embedded as a
deterministic matcher anchored at a position (the inspected patterns admit
no observable backtracking except the documented day-digit retry in the
time-suffixed pattern, which is implemented explicitly).  `re.search` tries
positions left to right; `re.finditer` additionally resumes after each
(non-empty) match. -/

def isSepChar (c : Char) : Bool := c = '.' || c = '-' || c = '/'

/-- The 1-2 digit month group followed by one separator (dot, dash or slash), with the (failing) 1-digit retry after two digits. -/
def take12SepOf (cs : List Char) : Option (Nat × List Char) :=
  match cs with
  | d1 :: rest1 =>
    if d1.isDigit then
      match rest1 with
      | d2 :: rest2 =>
        if d2.isDigit then
          match rest2 with
          | s :: rest3 => if isSepChar s then some (digitsVal [d1, d2], rest3) else none
          | [] => none
        else if isSepChar d2 then some (digitsVal [d1], rest2)
        else none
      | [] => none
    else none
  | [] => none

/-- Final `(\d{1,2})` (greedy, nothing after it in the pattern). -/
def take12Tail (cs : List Char) : Option (Nat × List Char) :=
  match cs with
  | d1 :: rest1 =>
    if d1.isDigit then
      match rest1 with
      | d2 :: rest2 => if d2.isDigit then some (digitsVal [d1, d2], rest2)
                       else some (digitsVal [d1], rest1)
      | [] => some (digitsVal [d1], [])
    else none
  | [] => none

/-- `(\d{4})[sep](\d{1,2})[sep](\d{1,2})` with sep in dot/dash/slash, anchored at the position. -/
def matchDotted (cs : List Char) : Option ((Nat × Nat × Nat) × List Char) :=
  match takeNDigits 4 cs with
  | none => none
  | some (ys, r1) =>
    match r1 with
    | s1 :: r2 =>
      if isSepChar s1 then
        match take12SepOf r2 with
        | none => none
        | some (mo, r3) =>
          match take12Tail r3 with
          | none => none
          | some (d, r4) => some ((digitsVal ys, mo, d), r4)
      else none
    | [] => none

/-- `(\d{1,2})\s*X` for a literal stop character `X` (년/월/일); after two
digits the 1-digit retry necessarily fails, so the match is deterministic. -/
def take12Stop (stop : Char) (cs : List Char) : Option (Nat × List Char) :=
  match cs with
  | d1 :: rest1 =>
    if d1.isDigit then
      match rest1 with
      | d2 :: rest2 =>
        if d2.isDigit then
          match rest2.dropWhile pySpace with
          | s :: r3 => if s = stop then some (digitsVal [d1, d2], r3) else none
          | [] => none
        else
          match rest1.dropWhile pySpace with
          | s :: r3 => if s = stop then some (digitsVal [d1], r3) else none
          | [] => none
      | [] => none
    else none
  | [] => none

/-- `(\d{4})\s*년\s*(\d{1,2})\s*월\s*(\d{1,2})\s*일` anchored at the
position. -/
def matchKor (cs : List Char) : Option ((Nat × Nat × Nat) × List Char) :=
  match takeNDigits 4 cs with
  | none => none
  | some (ys, r1) =>
    match r1.dropWhile pySpace with
    | s1 :: r2 =>
      if s1 = '년' then
        match take12Stop '월' (r2.dropWhile pySpace) with
        | none => none
        | some (mo, r3) =>
          match take12Stop '일' (r3.dropWhile pySpace) with
          | none => none
          | some (d, r4) => some ((digitsVal ys, mo, d), r4)
      else none
    | [] => none

/-- `\s*\d{1,2}:\d{2}` (the time suffix of the third primary pattern). -/
def matchTimeTail (cs : List Char) : Bool :=
  match cs.dropWhile pySpace with
  | d1 :: rest1 =>
    if d1.isDigit then
      match rest1 with
      | d2 :: rest2 =>
        if d2.isDigit then
          match rest2 with
          | ':' :: r3 => (takeNDigits 2 r3).isSome
          | _ => false
        else if d2 = ':' then (takeNDigits 2 rest2).isSome
        else false
      | [] => false
    else false
  | [] => false

/-- `(\d{4})[sep](\d{1,2})[sep](\d{1,2})\s*\d{1,2}:\d{2}` (sep as above): the day group
genuinely backtracks from two digits to one when the time suffix fails. -/
def matchDottedTime (cs : List Char) : Option ((Nat × Nat × Nat) × List Char) :=
  match takeNDigits 4 cs with
  | none => none
  | some (ys, r1) =>
    match r1 with
    | s1 :: r2 =>
      if isSepChar s1 then
        match take12SepOf r2 with
        | none => none
        | some (mo, r3) =>
          match r3 with
          | d1 :: rest1 =>
            if d1.isDigit then
              match rest1 with
              | d2 :: rest2 =>
                if d2.isDigit then
                  if matchTimeTail rest2 then some ((digitsVal ys, mo, digitsVal [d1, d2]), rest2)
                  else if matchTimeTail rest1 then some ((digitsVal ys, mo, digitsVal [d1]), rest1)
                  else none
                else if matchTimeTail rest1 then some ((digitsVal ys, mo, digitsVal [d1]), rest1)
                else none
              | [] => none
            else none
          | [] => none
      else none
    | [] => none

/-- Label alternation `(입력|등록|작성|기사입력)` / `(수정)` at a position
(the alternatives have pairwise-distinct first characters, so at most one
matches). -/
def matchLabel : List String → List Char → Option (List Char)
  | [], _ => none
  | lbl :: rest, cs =>
    match stripPre lbl.data cs with
    | some r => some r
    | none => matchLabel rest cs

/-- `\s*[:：]?\s*` after a label. -/
def skipWsColon (cs : List Char) : List Char :=
  match cs.dropWhile pySpace with
  | ':' :: r => r.dropWhile pySpace
  | '：' :: r => r.dropWhile pySpace
  | r => r

def LABELS1 : List String := ["입력", "등록", "작성", "기사입력"]

def LABELS2 : List String := ["수정"]

/-- A labelled primary pattern anchored at a position: label, optional
colon, then the date shape. -/
def matchPrimAt (labels : List String)
    (datePart : List Char → Option ((Nat × Nat × Nat) × List Char))
    (cs : List Char) : Option (Nat × Nat × Nat) :=
  match matchLabel labels cs with
  | none => none
  | some r1 =>
    match datePart (skipWsColon r1) with
    | none => none
    | some (c, _) => some c

/-- `re.search`: leftmost position where the anchored matcher succeeds. -/
def searchP {α : Type} (f : List Char → Option α) : List Char → Option α
  | [] => f []
  | c :: rest =>
    match f (c :: rest) with
    | some r => some r
    | none => searchP f rest

/-- `re.finditer` core with explicit fuel (one unit per step; every matcher
used here consumes at least one character per match, so `fuel = length`
is exact): successive non-overlapping leftmost matches. -/
def scanAllF {α : Type} (f : List Char → Option (α × List Char)) :
    Nat → List Char → List α
  | 0, _ => []
  | _ + 1, [] => []
  | fuel + 1, c :: rest =>
    match f (c :: rest) with
    | some (r, cs2) => r :: scanAllF f fuel cs2
    | none => scanAllF f fuel rest

def scanAll {α : Type} (f : List Char → Option (α × List Char)) (cs : List Char) :
    List α :=
  scanAllF f cs.length cs

end News3

namespace News3

/-! ### `date_filter.py`: validity, scoring, `extract_best_date`

The wall-clock date `_now_kst().date()` is passed in explicitly as
`today = (year, month, day)`.  `dt.date(y, m, d)` raises exactly when the
day exceeds the month length or the year leaves 1..9999, which the guarded
context reduces to the two final tests below. -/

def _is_valid_ymd (todayY y m d : Nat) : Bool :=
  if y < 2000 || todayY + 1 < y then false
  else if m < 1 || 12 < m then false
  else if d < 1 || 31 < d then false
  else decide (y ≤ 9999) && decide (d ≤ monthDays y m)

/-- `abs((today - cand).days)` on `datetime.date` values. -/
def deltaDays (t c : Nat × Nat × Nat) : Nat :=
  ((toordinal t.1 t.2.1 t.2.2 : Int) - (toordinal c.1 c.2.1 c.2.2 : Int)).natAbs

def _score_candidate (today c : Nat × Nat × Nat) : Nat :=
  100000 - deltaDays today c

/-- The five primary searches, in `PRIMARY_DATE_PATTERNS` order.  The label
group is non-numeric, so `nums[-3:]` is always the three digit groups. -/
def primSearches : List (List Char → Option (Nat × Nat × Nat)) :=
  [ searchP (matchPrimAt LABELS1 matchDotted),
    searchP (matchPrimAt LABELS1 matchKor),
    searchP (matchPrimAt LABELS1 matchDottedTime),
    searchP (matchPrimAt LABELS2 matchDotted),
    searchP (matchPrimAt LABELS2 matchKor) ]

/-- Loop (A): first pattern whose first match passes `_is_valid_ymd`; an
invalid first match falls through to the next pattern. -/
def primLoop (todayY : Nat) :
    List (List Char → Option (Nat × Nat × Nat)) → List Char →
    Option (Nat × Nat × Nat)
  | [], _ => none
  | f :: fs, cs =>
    match f cs with
    | some c =>
      if _is_valid_ymd todayY c.1 c.2.1 c.2.2 then some c
      else primLoop todayY fs cs
    | none => primLoop todayY fs cs

/-- Loop (B): every `finditer` match of the two fallback patterns, in
pattern order, filtered by `_is_valid_ymd`. -/
def fallbackCands (todayY : Nat) (cs : List Char) : List (Nat × Nat × Nat) :=
  (scanAll matchDotted cs).filter (fun c => _is_valid_ymd todayY c.1 c.2.1 c.2.2)
    ++ (scanAll matchKor cs).filter (fun c => _is_valid_ymd todayY c.1 c.2.1 c.2.2)

/-- `max(cands, key=_score_candidate)`: first element of maximal score. -/
def maxByScore (today : Nat × Nat × Nat) (c : Nat × Nat × Nat)
    (l : List (Nat × Nat × Nat)) : Nat × Nat × Nat :=
  l.foldl (fun best x =>
    if _score_candidate today best < _score_candidate today x then x else best) c

def extract_best_date (today : Nat × Nat × Nat) (text : String) :
    Option (Nat × Nat × Nat) :=
  if text = "" then none
  else
    match primLoop today.1 primSearches text.data with
    | some c => some c
    | none =>
      match fallbackCands today.1 text.data with
      | [] => none
      | c :: rest => some (maxByScore today c rest)

end News3

namespace News3

def noPrimaryMatch (text : String) : Bool :=
  primSearches.all fun f => (f text.data).isNone

/-- The `(year, month, day)` triple passed as "today" denotes a calendar
date. -/
def ValidDate (t : Nat × Nat × Nat) : Prop :=
  1 ≤ t.1 ∧ 1 ≤ t.2.1 ∧ t.2.1 ≤ 12 ∧ 1 ≤ t.2.2 ∧ t.2.2 ≤ 31

instance (t : Nat × Nat × Nat) : Decidable (ValidDate t) := by
  unfold ValidDate; infer_instance

theorem valid_window {todayY y m d : Nat}
    (h : _is_valid_ymd todayY y m d = true) :
    2000 ≤ y ∧ y ≤ todayY + 1 ∧ 1 ≤ m ∧ m ≤ 12 ∧ 1 ≤ d ∧ d ≤ 31 := by
  unfold _is_valid_ymd at h
  split_ifs at h with h1 h2 h3
  simp only [Bool.or_eq_true, decide_eq_true_eq, not_or] at h1 h2 h3
  omega

theorem primLoop_some_valid {todayY : Nat} :
    ∀ (fs : List (List Char → Option (Nat × Nat × Nat))) (cs : List Char)
      (c : Nat × Nat × Nat), primLoop todayY fs cs = some c →
      _is_valid_ymd todayY c.1 c.2.1 c.2.2 = true := by
  intro fs
  induction fs with
  | nil => intro cs c h; exact absurd h (by simp [primLoop])
  | cons f fs ih =>
    intro cs c h
    rcases h1 : f cs with _ | c0
    · simp only [primLoop, h1] at h; exact ih cs c h
    · simp only [primLoop, h1] at h
      by_cases h2 : _is_valid_ymd todayY c0.1 c0.2.1 c0.2.2 = true
      · rw [if_pos h2] at h; injection h with h3; rw [← h3]; exact h2
      · rw [if_neg h2] at h; exact ih cs c h

theorem primLoop_none {todayY : Nat} :
    ∀ (fs : List (List Char → Option (Nat × Nat × Nat))) (cs : List Char),
      (∀ f ∈ fs, f cs = none) → primLoop todayY fs cs = none := by
  intro fs
  induction fs with
  | nil => intro cs _; rfl
  | cons f fs ih =>
    intro cs h
    rw [primLoop, h f (List.mem_cons_self f fs)]
    exact ih cs fun g hg => h g (List.mem_cons_of_mem f hg)

theorem fallback_valid {todayY : Nat} {cs : List Char} {c : Nat × Nat × Nat}
    (h : c ∈ fallbackCands todayY cs) :
    _is_valid_ymd todayY c.1 c.2.1 c.2.2 = true := by
  unfold fallbackCands at h
  rcases List.mem_append.mp h with h1 | h1
  · exact (List.mem_filter.mp h1).2
  · exact (List.mem_filter.mp h1).2

theorem maxByScore_cons (today c x : Nat × Nat × Nat)
    (xs : List (Nat × Nat × Nat)) :
    maxByScore today c (x :: xs) =
      maxByScore today
        (if _score_candidate today c < _score_candidate today x then x else c) xs := rfl

theorem maxByScore_mem (today c : Nat × Nat × Nat)
    (l : List (Nat × Nat × Nat)) : maxByScore today c l ∈ c :: l := by
  induction l generalizing c with
  | nil => exact List.mem_singleton.mpr rfl
  | cons x xs ih =>
    rw [maxByScore_cons]
    by_cases h2 : _score_candidate today c < _score_candidate today x
    · rw [if_pos h2]
      rcases List.mem_cons.mp (ih x) with h1 | h1
      · rw [h1]; exact List.mem_cons_of_mem c (List.mem_cons_self x xs)
      · exact List.mem_cons_of_mem c (List.mem_cons_of_mem x h1)
    · rw [if_neg h2]
      rcases List.mem_cons.mp (ih c) with h1 | h1
      · rw [h1]; exact List.mem_cons_self c _
      · exact List.mem_cons_of_mem c (List.mem_cons_of_mem x h1)

theorem maxByScore_ge (today c : Nat × Nat × Nat)
    (l : List (Nat × Nat × Nat)) :
    ∀ x ∈ c :: l,
      _score_candidate today x ≤ _score_candidate today (maxByScore today c l) := by
  induction l generalizing c with
  | nil =>
    intro x hx
    rw [List.mem_singleton.mp hx]
    exact Nat.le_refl _
  | cons y ys ih =>
    intro x hx
    rw [maxByScore_cons]
    have hcb : _score_candidate today c ≤ _score_candidate today
        (if _score_candidate today c < _score_candidate today y then y else c) := by
      by_cases h2 : _score_candidate today c < _score_candidate today y
      · rw [if_pos h2]; omega
      · rw [if_neg h2]
    have hyb : _score_candidate today y ≤ _score_candidate today
        (if _score_candidate today c < _score_candidate today y then y else c) := by
      by_cases h2 : _score_candidate today c < _score_candidate today y
      · rw [if_pos h2]
      · rw [if_neg h2]; omega
    rcases List.mem_cons.mp hx with h1 | h1
    · rw [h1]
      exact le_trans hcb (ih _ _ (List.mem_cons_self _ _))
    · rcases List.mem_cons.mp h1 with h2 | h2
      · rw [h2]
        exact le_trans hyb (ih _ _ (List.mem_cons_self _ _))
      · exact ih _ x (List.mem_cons_of_mem _ h2)

end News3

namespace News3

theorem daysBeforeMonthTable_le (m : Nat) : daysBeforeMonthTable m ≤ 334 := by
  rcases m with _|_|_|_|_|_|_|_|_|_|_|_|_|m
  all_goals simp [daysBeforeMonthTable]

theorem daysBeforeMonth_le (y m : Nat) : daysBeforeMonth y m ≤ 335 := by
  unfold daysBeforeMonth
  have h := daysBeforeMonthTable_le m
  split_ifs <;> omega

theorem toordinal_lb (y m d : Nat) (hd : 1 ≤ d) :
    365 * (y - 1) + 1 ≤ toordinal y m d := by
  unfold toordinal
  have hq : (y - 1) / 100 ≤ (y - 1) / 4 :=
    Nat.div_le_div_left (by omega) (by omega)
  omega

theorem toordinal_ub (y m d : Nat) (hy : y ≤ 2201) (hd : d ≤ 31) :
    toordinal y m d ≤ 365 * (y - 1) + 921 := by
  unfold toordinal
  have h4 : (y - 1) / 4 ≤ 550 := by
    have : (y - 1) / 4 ≤ 2200 / 4 := Nat.div_le_div_right (by omega)
    omega
  have h400 : (y - 1) / 400 ≤ 5 := by
    have : (y - 1) / 400 ≤ 2200 / 400 := Nat.div_le_div_right (by omega)
    omega
  have hb := daysBeforeMonth_le y m
  omega

/-- For a candidate inside the validity window and a real "today" of year
at most 2200, the day distance never reaches the 100000 score clamp. -/
theorem deltaDays_lt (today c : Nat × Nat × Nat) (ht : ValidDate today)
    (hy : today.1 ≤ 2200)
    (hv : _is_valid_ymd today.1 c.1 c.2.1 c.2.2 = true) :
    deltaDays today c < 100000 := by
  obtain ⟨ht1, -, -, ht4, ht5⟩ := ht
  obtain ⟨hc1, hc2, -, -, hc5, hc6⟩ := valid_window hv
  have hT1 := toordinal_lb today.1 today.2.1 today.2.2 ht4
  have hT2 := toordinal_ub today.1 today.2.1 today.2.2 (by omega) ht5
  have hC1 := toordinal_lb c.1 c.2.1 c.2.2 hc5
  have hC2 := toordinal_ub c.1 c.2.1 c.2.2 (by omega) hc6
  unfold deltaDays
  omega

end News3

namespace News3

theorem extract_some_valid (today : Nat × Nat × Nat) (text : String)
    (c : Nat × Nat × Nat) (h : extract_best_date today text = some c) :
    _is_valid_ymd today.1 c.1 c.2.1 c.2.2 = true := by
  unfold extract_best_date at h
  by_cases he : text = ""
  · rw [if_pos he] at h; exact absurd h (by simp)
  · rw [if_neg he] at h
    rcases hp : primLoop today.1 primSearches text.data with _ | c0
    · rw [hp] at h
      rcases hf : fallbackCands today.1 text.data with _ | ⟨c1, rest⟩
      · rw [hf] at h; exact absurd h (by simp)
      · rw [hf] at h
        have h3 : some (maxByScore today c1 rest) = some c := h
        injection h3 with h4
        have hm : maxByScore today c1 rest ∈ c1 :: rest := maxByScore_mem today c1 rest
        rw [h4] at hm
        rw [← hf] at hm
        exact fallback_valid hm
    · rw [hp] at h
      have h3 : some c0 = some c := h
      injection h3 with h4
      rw [← h4]
      exact primLoop_some_valid primSearches text.data c0 hp

theorem extract_eq_fallback (today : Nat × Nat × Nat) (text : String)
    (hnp : noPrimaryMatch text = true) :
    extract_best_date today text =
      match fallbackCands today.1 text.data with
      | [] => none
      | c :: rest => some (maxByScore today c rest) := by
  have hp : primLoop today.1 primSearches text.data = none := by
    apply primLoop_none
    intro f hf
    exact Option.isNone_iff_eq_none.mp (List.all_eq_true.mp hnp f hf)
  unfold extract_best_date
  by_cases he : text = ""
  · rw [if_pos he, he]
    rfl
  · rw [if_neg he, hp]

end News3

namespace News3

/-- C6: every date returned by `extract_best_date` has
`2000 ≤ year ≤ todayYear + 1`; when none of the five labelled primary
patterns matches anywhere in the text, an empty validated fallback
candidate list yields `none`, and a returned date is a fallback candidate
whose day distance to today is minimal among all validated candidates
(for any real today: a calendar date of year at most 2200, so the score
clamp at zero is never reached). -/
theorem C6_extract_best_date (today : Nat × Nat × Nat) (text : String) :
    (∀ c, extract_best_date today text = some c →
      2000 ≤ c.1 ∧ c.1 ≤ today.1 + 1) ∧
    (noPrimaryMatch text = true →
      (fallbackCands today.1 text.data = [] →
        extract_best_date today text = none) ∧
      (∀ c, extract_best_date today text = some c →
        c ∈ fallbackCands today.1 text.data ∧
        (ValidDate today → today.1 ≤ 2200 →
          ∀ x ∈ fallbackCands today.1 text.data,
            deltaDays today c ≤ deltaDays today x))) := by
  refine ⟨?_, ?_⟩
  · intro c h
    have hw := valid_window (extract_some_valid today text c h)
    exact ⟨hw.1, hw.2.1⟩
  · intro hnp
    have heq := extract_eq_fallback today text hnp
    refine ⟨?_, ?_⟩
    · intro hf
      rw [heq, hf]
    · intro c h
      rw [heq] at h
      rcases hf : fallbackCands today.1 text.data with _ | ⟨c1, rest⟩
      · rw [hf] at h; exact absurd h (by simp)
      · rw [hf] at h
        have h3 : some (maxByScore today c1 rest) = some c := h
        injection h3 with h4
        have hmem : c ∈ c1 :: rest := by
          rw [← h4]
          exact maxByScore_mem today c1 rest
        refine ⟨hmem, ?_⟩
        intro hval hy2 x hx
        have hge : _score_candidate today x ≤ _score_candidate today c := by
          rw [← h4]
          exact maxByScore_ge today c1 rest x hx
        have hmemF : c ∈ fallbackCands today.1 text.data := by
          rw [hf]
          exact hmem
        have hlt := deltaDays_lt today c hval hy2 (fallback_valid hmemF)
        unfold _score_candidate at hge
        omega

def c6today : Nat × Nat × Nat := (2026, 10, 12)

def c6text : String := "본문 2026.10.5 그리고 2024년 1월 2일"

theorem C6_extract_best_date_witness :
    (∀ c, extract_best_date c6today c6text = some c →
      2000 ≤ c.1 ∧ c.1 ≤ c6today.1 + 1) ∧
    extract_best_date c6today c6text = some (2026, 10, 5) ∧
    (2026, 10, 5) ∈ fallbackCands c6today.1 c6text.data ∧
    ∀ x ∈ fallbackCands c6today.1 c6text.data,
      deltaDays c6today (2026, 10, 5) ≤ deltaDays c6today x := by
  have h := C6_extract_best_date c6today c6text
  have hres : extract_best_date c6today c6text = some (2026, 10, 5) := by decide
  have h2 := (h.2 (by decide)).2 (2026, 10, 5) hres
  exact ⟨h.1, hres, h2.1, h2.2 (by decide) (by decide)⟩

end News3
